import Mathlib

/-!
# Zipline inventory and order fulfilment: a shallow embedding

The definitions below follow `store/store.go` and
`services/inventory_service.go`.

Modelling conventions.

* Go `int` is modelled by `Int`; all quantities, masses and stock counts are
  taken to stay inside the machine range, so no arithmetic wraps. Where the
  truth of a statement rests on that, the range is a hypothesis of the theorem
  and `addInt` gives what the 64-bit addition of the code yields.
* A Go `map[int]V` of a store built by `NewMemoryStore` is modelled by what a
  read of it yields: `Inventory : Int → Int` (an absent key reads `0`) and
  `Catalog : Int → Option Product` (an absent key reads `none`).
* The package `zipline/constants` is not part of the sources at hand, so the
  constant `MAX_SHIPMENT_WEIGHT_IN_GRAMS` is an explicit parameter `cap` of
  every function that reads it.
* `ShipPackage` logs every shipment it executes; the embedding keeps that log
  as the list `shipped` of the orders on which `ShipPackage` returned `nil`.
* The `for toShip > 0` loop of `ProcessOrder` has no evident bound, so it is
  run with a fuel argument: `none` means that the loop was still running when
  the fuel ran out.
* Whether a flush fails is not visible in the state afterwards, so the failing
  `ShipPackage` calls of the flushes are counted by `ProcessOrderFailedFlushes`,
  which walks through the same loops as `ProcessOrder`.
-/

namespace Zipline

/-! ## models -/

/-- Product of the catalog (`models.Product`). -/
structure Product where
  ProductID : Int
  ProductName : String
  MassG : Int
deriving DecidableEq, Repr

/-- Item of an order (`models.Item`). -/
structure Item where
  ProductID : Int
  Quantity : Int
deriving DecidableEq, Repr

/-- Order of a customer (`models.Order`). -/
structure Order where
  OrderID : Int
  Requested : List Item
deriving DecidableEq, Repr

/-- Errors built by `fmt.Errorf` in the services, with the values they print. -/
inductive Err where
  | EmptyCatalog : Err
  | EmptyOrder (orderID : Int) : Err
  | EmptyRestock : Err
  | ProductNotFound (productID : Int) : Err
  | InsufficientStock (productID wanted stock : Int) : Err
  | WeightExceeded (totalWeight : Int) : Err
deriving DecidableEq, Repr

/-! ## store -/

/-- The in-memory store (`store.MemoryStore`). -/
structure MemoryStore where
  Inventory : Int → Int
  Catalog : Int → Option Product
  PendingOrders : List Order

/-- `NewMemoryStore`: empty maps and no pending order. -/
def NewMemoryStore : MemoryStore :=
  { Inventory := fun _ => 0, Catalog := fun _ => none, PendingOrders := [] }

/-- `MemoryStore.InitCatalog`: every product is stored under its id and its
stock entry is set to zero, in list order. -/
def MemoryStore.InitCatalog (s : MemoryStore) : List Product → MemoryStore
  | [] => s
  | p :: ps =>
    MemoryStore.InitCatalog
      { s with
        Catalog := fun k => if k = p.ProductID then some p else s.Catalog k
        Inventory := fun k => if k = p.ProductID then 0 else s.Inventory k } ps

/-- `MemoryStore.GetProduct`. -/
def MemoryStore.GetProduct (s : MemoryStore) (productID : Int) : Option Product :=
  s.Catalog productID

/-- `MemoryStore.AddStock`. -/
def MemoryStore.AddStock (s : MemoryStore) (productID quantity : Int) : MemoryStore :=
  { s with Inventory := fun k =>
      if k = productID then s.Inventory productID + quantity else s.Inventory k }

/-- `MemoryStore.GetStock`. -/
def MemoryStore.GetStock (s : MemoryStore) (productID : Int) : Int :=
  s.Inventory productID

/-- `MemoryStore.DeductStock`: guarded decrement. -/
def MemoryStore.DeductStock (s : MemoryStore) (productID quantity : Int) : MemoryStore :=
  if s.Inventory productID < quantity then s
  else
    { s with Inventory := fun k =>
        if k = productID then s.Inventory productID - quantity else s.Inventory k }

/-- `MemoryStore.AddPendingOrder`: appends to the slice of pending orders. -/
def MemoryStore.AddPendingOrder (s : MemoryStore) (order : Order) : MemoryStore :=
  { s with PendingOrders := s.PendingOrders ++ [order] }

/-- `MemoryStore.GetPendingOrders`. -/
def MemoryStore.GetPendingOrders (s : MemoryStore) : List Order :=
  s.PendingOrders

/-- `MemoryStore.ClearPendingOrders`. -/
def MemoryStore.ClearPendingOrders (s : MemoryStore) : MemoryStore :=
  { s with PendingOrders := [] }

/-! ## services -/

/-- `InventoryService.FindProduct`: the product, or the not-found error. -/
def FindProduct (s : MemoryStore) (productID : Int) : Except Err Product :=
  match s.GetProduct productID with
  | none => .error (.ProductNotFound productID)
  | some product => .ok product

/-- First loop of `ShipPackage`: validation of the items in order, threading
`totalWeight`; the result is the first error or the final total weight. -/
def validateItems (cap : Int) (s : MemoryStore) : List Item → Int → Except Err Int
  | [], totalWeight => .ok totalWeight
  | item :: rest, totalWeight =>
    match s.GetProduct item.ProductID with
    | none => .error (.ProductNotFound item.ProductID)
    | some product =>
      let stock := s.GetStock item.ProductID
      if stock < item.Quantity then
        .error (.InsufficientStock item.ProductID item.Quantity stock)
      else
        let totalWeight := totalWeight + product.MassG * item.Quantity
        if totalWeight > cap then .error (.WeightExceeded totalWeight)
        else validateItems cap s rest totalWeight

/-- Second loop of `ShipPackage`: `DeductStock` for every item in order. -/
def deductItems (s : MemoryStore) : List Item → MemoryStore
  | [] => s
  | item :: rest => deductItems (s.DeductStock item.ProductID item.Quantity) rest

/-- `InventoryService.ShipPackage`: the store afterwards and the returned error
(`none` is Go's `nil`). -/
def ShipPackage (cap : Int) (s : MemoryStore) (order : Order) : MemoryStore × Option Err :=
  match validateItems cap s order.Requested 0 with
  | .error e => (s, some e)
  | .ok _ => (deductItems s order.Requested, none)

/-- Local variables of `ProcessOrder` together with the store and the log of
executed shipments. -/
structure PackState where
  store : MemoryStore
  pending : List Item
  currentShipment : List Item
  currentWeight : Int
  shipped : List Order

/-- The closure `flushShipment` of `ProcessOrder`. -/
def flushShipment (cap : Int) (orderID : Int) (st : PackState) : PackState :=
  match st.currentShipment with
  | [] => st
  | _ :: _ =>
    let order : Order := { OrderID := orderID, Requested := st.currentShipment }
    match ShipPackage cap st.store order with
    | (store, some _) =>
      { store := store
        pending := st.pending ++ st.currentShipment
        currentShipment := []
        currentWeight := 0
        shipped := st.shipped }
    | (store, none) =>
      { store := store
        pending := st.pending
        currentShipment := []
        currentWeight := 0
        shipped := st.shipped ++ [order] }

/-- The loop `for toShip > 0` of `ProcessOrder` for one item, run for at most
`fuel` iterations; the result is the final `remaining` and state. -/
def packLoop (cap : Int) (orderID : Int) (productID : Int) (product : Product) :
    Nat → Int → Int → PackState → Option (Int × PackState)
  | fuel, toShip, remaining, st =>
    if toShip > 0 then
      match fuel with
      | 0 => none
      | fuel + 1 =>
        let st1 :=
          if st.currentWeight + product.MassG > cap then flushShipment cap orderID st else st
        if st1.currentWeight + product.MassG ≤ cap then
          packLoop cap orderID productID product fuel (toShip - 1) (remaining - 1)
            { st1 with
              currentShipment := st1.currentShipment ++ [{ ProductID := productID, Quantity := 1 }]
              currentWeight := st1.currentWeight + product.MassG }
        else
          packLoop cap orderID productID product fuel toShip remaining st1
    else some (remaining, st)

/-- The loop `for _, item := range order.Requested` of `ProcessOrder`; the
second component is the error of the early return, if any. -/
def processItems (cap : Int) (fuel : Nat) (orderID : Int) :
    List Item → PackState → Option (PackState × Option Err)
  | [], st => some (st, none)
  | item :: rest, st =>
    match FindProduct st.store item.ProductID with
    | .error e => some (st, some e)
    | .ok product =>
      let available := st.store.GetStock item.ProductID
      let toShip := min item.Quantity available
      match packLoop cap orderID item.ProductID product fuel toShip item.Quantity st with
      | none => none
      | some (remaining, st1) =>
        let st2 :=
          if remaining > 0 then
            { st1 with pending := st1.pending ++ [{ ProductID := item.ProductID, Quantity := remaining }] }
          else st1
        processItems cap fuel orderID rest st2

/-- Result of a call of `ProcessOrder` that returned. -/
structure OrderResult where
  store : MemoryStore
  err : Option Err
  shipped : List Order

/-- `InventoryService.ProcessOrder`; `none` when a packing loop did not finish
within `fuel` iterations. -/
def ProcessOrder (cap : Int) (fuel : Nat) (s : MemoryStore) (order : Order) : Option OrderResult :=
  match order.Requested with
  | [] => some { store := s, err := some (.EmptyOrder order.OrderID), shipped := [] }
  | _ :: _ =>
    match processItems cap fuel order.OrderID order.Requested
        { store := s, pending := [], currentShipment := [], currentWeight := 0, shipped := [] } with
    | none => none
    | some (st, some e) => some { store := st.store, err := some e, shipped := st.shipped }
    | some (st, none) =>
      let st := flushShipment cap order.OrderID st
      match st.pending with
      | _ :: _ =>
        some { store := st.store.AddPendingOrder { OrderID := order.OrderID, Requested := st.pending }
               err := none
               shipped := st.shipped }
      | [] => some { store := st.store.ClearPendingOrders, err := none, shipped := st.shipped }

/-- First loop of `ProcessRestock`: stock is added for the known products. -/
def restockItems (s : MemoryStore) : List Item → MemoryStore
  | [] => s
  | item :: rest =>
    match s.GetProduct item.ProductID with
    | none => restockItems s rest
    | some _ => restockItems (s.AddStock item.ProductID item.Quantity) rest

/-- Second loop of `ProcessRestock`: every formerly pending order goes through
`ProcessOrder`, whose error is dropped; the shipments executed are collected. -/
def reprocessPending (cap : Int) (fuel : Nat) :
    List Order → MemoryStore → List Order → Option (MemoryStore × List Order)
  | [], s, shipped => some (s, shipped)
  | order :: rest, s, shipped =>
    match ProcessOrder cap fuel s order with
    | none => none
    | some r => reprocessPending cap fuel rest r.store (shipped ++ r.shipped)

/-- `InventoryService.ProcessRestock`; `none` when a packing loop did not
finish within `fuel` iterations. -/
def ProcessRestock (cap : Int) (fuel : Nat) (s : MemoryStore) (restock : List Item) :
    Option OrderResult :=
  match restock with
  | [] => some { store := s, err := some .EmptyRestock, shipped := [] }
  | _ :: _ =>
    let s1 := restockItems s restock
    let pending := s1.GetPendingOrders
    let s2 := s1.ClearPendingOrders
    match reprocessPending cap fuel pending s2 [] with
    | none => none
    | some (s3, shipped) => some { store := s3, err := none, shipped := shipped }

/-- `InventoryService.InitCatalog`. -/
def InitCatalog (s : MemoryStore) (productInfo : List Product) : MemoryStore × Option Err :=
  match productInfo with
  | [] => (s, some .EmptyCatalog)
  | _ :: _ => (s.InitCatalog productInfo, none)

/-! ## quantities the claims speak about -/

/-- Weight of a list of items under a catalog: unit mass times quantity, summed
(a product missing from the catalog counts for nothing). -/
def itemsWeight (catalog : Int → Option Product) : List Item → Int
  | [] => 0
  | item :: rest =>
    (match catalog item.ProductID with
      | none => 0
      | some product => product.MassG * item.Quantity) + itemsWeight catalog rest

/-- Total quantity of product `p` over a list of items. -/
def itemsQty (p : Int) : List Item → Int
  | [] => 0
  | item :: rest => (if item.ProductID = p then item.Quantity else 0) + itemsQty p rest

/-- Total quantity of product `p` over a list of shipments. -/
def shippedQty (p : Int) : List Order → Int
  | [] => 0
  | order :: rest => itemsQty p order.Requested + shippedQty p rest

/-! ## sample data -/

/-- The catalog of `TestProcessOrder_FullAndPartialShipment` on a fresh store:
product 0 of 700 grams and product 10 of 300 grams, all stock at zero. -/
def catalogStore : MemoryStore :=
  (InitCatalog NewMemoryStore [⟨0, "RBC A+ Adult", 700⟩, ⟨10, "FFP A+", 300⟩]).1

/-- The store `catalogStore` after `AddStock 0 2` and `AddStock 10 1`, as after
the first restock of `TestProcessOrder_FullAndPartialShipment`. -/
def stockedStore : MemoryStore := (catalogStore.AddStock 0 2).AddStock 10 1

/-- Order 123 of `TestProcessOrder_FullAndPartialShipment`. -/
def order123 : Order := ⟨123, [⟨0, 2⟩, ⟨10, 3⟩]⟩

/-- An order naming product 10 on two lines, two units each. -/
def repeatedOrder : Order := ⟨1, [⟨10, 2⟩, ⟨10, 2⟩]⟩

/-- The store `catalogStore` with three units of product 10. -/
def threeUnitStore : MemoryStore := catalogStore.AddStock 10 3

/-- A store whose only product, id 1, weighs 1801 grams and has one unit in stock. -/
def heavyStore : MemoryStore :=
  ((InitCatalog NewMemoryStore [⟨1, "Heavy Item", 1801⟩]).1).AddStock 1 1

/-- An order for one unit of product 1. -/
def heavyOrder : Order := ⟨1001, [⟨1, 1⟩]⟩

/-- The store `catalogStore` with order 7 already pending. -/
def backlogStore : MemoryStore := catalogStore.AddPendingOrder ⟨7, [⟨0, 1⟩]⟩

/-- An order for one unit of product 10. -/
def order8 : Order := ⟨8, [⟨10, 1⟩]⟩

/-- The store of `TestShipPackage_InsufficientStock`: product 3 of 40 grams,
one unit in stock. -/
def cryoStore : MemoryStore :=
  ((InitCatalog NewMemoryStore [⟨3, "CRYO A+", 40⟩]).1).AddStock 3 1

/-! ## auxiliary notions of the proofs -/

/-- The unshipped remainder of an order: the local `pending` of `ProcessOrder`
after the final flush, when the loop over the items ends without error. -/
def orderRemainder (cap : Int) (fuel : Nat) (s : MemoryStore) (order : Order) :
    Option (List Item) :=
  match processItems cap fuel order.OrderID order.Requested
      { store := s, pending := [], currentShipment := [], currentWeight := 0, shipped := [] } with
  | some (st, none) => some (flushShipment cap order.OrderID st).pending
  | _ => none

/-- What can be shipped of each item given the stock of `s`: the item with its
quantity lowered to the stock of its product. -/
def shippableItems (s : MemoryStore) (items : List Item) : List Item :=
  items.map (fun item =>
    { ProductID := item.ProductID, Quantity := min item.Quantity (s.Inventory item.ProductID) })

/-- What stays unshipped of each item given the stock of `s`: in input order,
the product with the quantity minus the shippable quantity, for the items
where that difference is positive. -/
def expectedRemainder (s : MemoryStore) : List Item → List Item
  | [] => []
  | item :: rest =>
    if item.Quantity - min item.Quantity (s.Inventory item.ProductID) > 0 then
      { ProductID := item.ProductID,
        Quantity := item.Quantity - min item.Quantity (s.Inventory item.ProductID) } ::
        expectedRemainder s rest
    else expectedRemainder s rest

/-- A property of the packing state that `flushShipment` keeps, that placing
a unit keeps and that queueing an item keeps. -/
structure Stable (cap orderID : Int) (P : PackState → Prop) : Prop where
  flush : ∀ st, P st → P (flushShipment cap orderID st)
  place : ∀ (st : PackState) (u : Item) (w : Int), P st →
    P { st with currentShipment := st.currentShipment ++ [u], currentWeight := w }
  queue : ∀ (st : PackState) (x : Item), P st → P { st with pending := st.pending ++ [x] }

/-- Invariant of the packing state of `ProcessOrder` started on the store `s0`,
when `placed k` units of product `k` have been placed so far and `pend` is
queued: the stock is the initial stock minus what the executed shipments
hold, the shipment being accumulated passes the validation of `ShipPackage`,
and of every product either nothing is placed or no more than was in stock. -/
structure PackInv (cap : Int) (s0 : MemoryStore) (placed : Int → Int) (pend : List Item)
    (st : PackState) : Prop where
  catalog : st.store.Catalog = s0.Catalog
  pendingOrders : st.store.PendingOrders = s0.PendingOrders
  stock : ∀ k, st.store.Inventory k = s0.Inventory k - shippedQty k st.shipped
  count : ∀ k, shippedQty k st.shipped + itemsQty k st.currentShipment = placed k
  bound : ∀ k, placed k = 0 ∨ placed k ≤ s0.Inventory k
  shippedNonneg : ∀ k, 0 ≤ shippedQty k st.shipped
  units : ∀ item ∈ st.currentShipment, item.Quantity = 1
  valid : validateItems cap st.store st.currentShipment 0 = .ok st.currentWeight
  pending : st.pending = pend

/-! ## sample data of the claims on restocking and packing -/

/-- The store `catalogStore` with the remainder of order 123 pending: two
units of product 10, none in stock. -/
def pendingStore : MemoryStore := catalogStore.AddPendingOrder ⟨123, [⟨10, 2⟩]⟩

/-- The store `backlogStore` with order 8 pending behind order 7, as
`ProcessOrder` on order 8 leaves it. -/
def twoPendingStore : MemoryStore := backlogStore.AddPendingOrder order8

/-- The store `catalogStore` with an order for the unknown product 999 pending. -/
def unknownPendingStore : MemoryStore := catalogStore.AddPendingOrder ⟨404, [⟨999, 1⟩]⟩

/-- An order for one unit of the 1801-gram product 1 followed by one unit of
the unknown product 999. -/
def heavyThenUnknownOrder : Order := ⟨1002, [⟨1, 1⟩, ⟨999, 1⟩]⟩

/-- The store `catalogStore` with two units of product 0. -/
def twoUnitStore : MemoryStore := catalogStore.AddStock 0 2

/-- An order naming product 0 on two lines, two units each. -/
def twiceTwoOrder : Order := ⟨2, [⟨0, 2⟩, ⟨0, 2⟩]⟩

/-- The store of `TestProcessOrder_ShipmentOverweightSplit`: product 1 of 1000
grams, three units in stock. -/
def splitStore : MemoryStore :=
  ((InitCatalog NewMemoryStore [⟨1, "Heavy Item", 1000⟩]).1).AddStock 1 3

/-! ## accounting of the requested units -/

/-- Units of product `k` that a packing state accounts for: those in executed
shipments, in the shipment being accumulated and in the local `pending`. -/
def PackState.accounted (st : PackState) (k : Int) : Int :=
  shippedQty k st.shipped + itemsQty k st.currentShipment + itemsQty k st.pending

/-! ## counting the failed flushes -/

/-- Whether the `ShipPackage` call that `flushShipment` makes in state `st`
returns an error; on an empty shipment no call is made. -/
def flushFails (cap orderID : Int) (st : PackState) : Bool :=
  match st.currentShipment with
  | [] => false
  | _ :: _ =>
    (ShipPackage cap st.store { OrderID := orderID, Requested := st.currentShipment }).2.isSome

/-- Number of failing flushes among those that the loop `for toShip > 0` makes
from state `st` within `fuel` iterations: the loop of `packLoop`, counting
instead of returning. -/
def packLoopFailed (cap : Int) (orderID : Int) (productID : Int) (product : Product) :
    Nat → Int → PackState → Nat
  | fuel, toShip, st =>
    if toShip > 0 then
      match fuel with
      | 0 => 0
      | fuel + 1 =>
        let failed :=
          if st.currentWeight + product.MassG > cap ∧ flushFails cap orderID st = true then 1
          else 0
        let st1 :=
          if st.currentWeight + product.MassG > cap then flushShipment cap orderID st else st
        if st1.currentWeight + product.MassG ≤ cap then
          failed + packLoopFailed cap orderID productID product fuel (toShip - 1)
            { st1 with
              currentShipment := st1.currentShipment ++ [{ ProductID := productID, Quantity := 1 }]
              currentWeight := st1.currentWeight + product.MassG }
        else
          failed + packLoopFailed cap orderID productID product fuel toShip st1
    else 0

/-- Number of failing flushes during the loop over the items of `ProcessOrder`
from state `st`. -/
def processItemsFailed (cap : Int) (fuel : Nat) (orderID : Int) : List Item → PackState → Nat
  | [], _ => 0
  | item :: rest, st =>
    match FindProduct st.store item.ProductID with
    | .error _ => 0
    | .ok product =>
      let toShip := min item.Quantity (st.store.GetStock item.ProductID)
      packLoopFailed cap orderID item.ProductID product fuel toShip st +
        match packLoop cap orderID item.ProductID product fuel toShip item.Quantity st with
        | none => 0
        | some (remaining, st1) =>
          processItemsFailed cap fuel orderID rest
            (if remaining > 0 then
              { st1 with
                pending := st1.pending ++ [{ ProductID := item.ProductID, Quantity := remaining }] }
            else st1)

/-- Number of `ShipPackage` calls returning an error among all the flushes of a
call of `ProcessOrder`: those of the packing loops and the final one. -/
def ProcessOrderFailedFlushes (cap : Int) (fuel : Nat) (s : MemoryStore) (order : Order) : Nat :=
  match order.Requested with
  | [] => 0
  | _ :: _ =>
    processItemsFailed cap fuel order.OrderID order.Requested
        { store := s, pending := [], currentShipment := [], currentWeight := 0, shipped := [] } +
      match processItems cap fuel order.OrderID order.Requested
          { store := s, pending := [], currentShipment := [], currentWeight := 0,
            shipped := [] } with
      | some (st, none) => if flushFails cap order.OrderID st = true then 1 else 0
      | _ => 0

/-- The units that the packing loop places of each item given the stock of
`s`: the item with the quantity max(0, min(quantity, stock)). -/
def placedItems (s : MemoryStore) (items : List Item) : List Item :=
  items.map (fun item =>
    { ProductID := item.ProductID,
      Quantity := max 0 (min item.Quantity (s.Inventory item.ProductID)) })

/-! ## packing by integer division -/

/-- Packing `q` units of product `p` with `k` units per shipment: `q / k` full
shipments of `k` single-unit items, then one of `q % k` single-unit items when
`k` does not divide `q`. -/
def packByDivision (orderID p : Int) (k q : Nat) : List Order :=
  List.replicate (q / k)
      { OrderID := orderID, Requested := List.replicate k { ProductID := p, Quantity := 1 } } ++
    (if q % k = 0 then []
     else [{ OrderID := orderID,
             Requested := List.replicate (q % k) { ProductID := p, Quantity := 1 } }])

/-! ## the range of Go's `int` -/

/-- Largest value of Go's `int` on a 64-bit platform. -/
def maxInt : Int := 9223372036854775807

/-- Smallest value of Go's `int` on a 64-bit platform. -/
def minInt : Int := -9223372036854775808

/-- The `int` that 64-bit two's complement arithmetic yields when the
mathematical result is `x`. -/
def wrapInt (x : Int) : Int := (x - minInt) % 18446744073709551616 + minInt

/-- Go's `+` on `int`, as in `s.Inventory[productID] += quantity`: the sum
wrapped to 64 bits. -/
def addInt (a b : Int) : Int := wrapInt (a + b)

/-- A fresh store after `AddStock(0, 9223372036854775807)`: product 0 holds the
largest `int`. -/
def fullStore : MemoryStore := NewMemoryStore.AddStock 0 maxInt

/-! ## ShipPackage: validation and deduction -/

@[simp] theorem DeductStock_Catalog (s : MemoryStore) (p q : Int) :
    (s.DeductStock p q).Catalog = s.Catalog := by
  unfold MemoryStore.DeductStock; split <;> rfl

@[simp] theorem DeductStock_PendingOrders (s : MemoryStore) (p q : Int) :
    (s.DeductStock p q).PendingOrders = s.PendingOrders := by
  unfold MemoryStore.DeductStock; split <;> rfl

theorem DeductStock_nonneg (s : MemoryStore) (p q : Int) (h : ∀ k, 0 ≤ s.Inventory k) :
    ∀ k, 0 ≤ (s.DeductStock p q).Inventory k := by
  intro k
  unfold MemoryStore.DeductStock
  split
  · exact h k
  · simp only
    split
    · omega
    · exact h k

@[simp] theorem deductItems_Catalog (items : List Item) (s : MemoryStore) :
    (deductItems s items).Catalog = s.Catalog := by
  induction items generalizing s with
  | nil => rfl
  | cons it rest ih => simp [deductItems, ih]

@[simp] theorem deductItems_PendingOrders (items : List Item) (s : MemoryStore) :
    (deductItems s items).PendingOrders = s.PendingOrders := by
  induction items generalizing s with
  | nil => rfl
  | cons it rest ih => simp [deductItems, ih]

theorem deductItems_nonneg (items : List Item) (s : MemoryStore)
    (h : ∀ k, 0 ≤ s.Inventory k) : ∀ k, 0 ≤ (deductItems s items).Inventory k := by
  induction items generalizing s with
  | nil => exact h
  | cons it rest ih => exact ih _ (DeductStock_nonneg s _ _ h)

/-- A successful validation returns the start weight plus the weight of the
items, and that total is within the cap as soon as there is an item. -/
theorem validateItems_ok (cap : Int) (s : MemoryStore) (items : List Item) (w w' : Int)
    (h : validateItems cap s items w = .ok w') :
    w' = w + itemsWeight s.Catalog items ∧ (items ≠ [] → w' ≤ cap) := by
  induction items generalizing w with
  | nil =>
    simp only [validateItems, Except.ok.injEq] at h
    simp [itemsWeight, h]
  | cons it rest ih =>
    simp only [validateItems, MemoryStore.GetProduct, MemoryStore.GetStock] at h
    cases hc : s.Catalog it.ProductID with
    | none => simp [hc] at h
    | some product =>
      simp only [hc] at h
      split at h
      · cases h
      · split at h
        · cases h
        · rename_i hw
          obtain ⟨h1, h2⟩ := ih _ h
          refine ⟨?_, fun _ => ?_⟩
          · simp only [itemsWeight, hc]; omega
          · cases rest with
            | nil =>
              simp only [validateItems, Except.ok.injEq] at h
              omega
            | cons a l => exact h2 (by simp)

theorem ShipPackage_fst_of_ok (cap : Int) (s : MemoryStore) (order : Order)
    (h : (ShipPackage cap s order).2 = none) :
    ∃ w, validateItems cap s order.Requested 0 = .ok w ∧
      (ShipPackage cap s order).1 = deductItems s order.Requested := by
  unfold ShipPackage at h ⊢
  cases hv : validateItems cap s order.Requested 0 with
  | error e => simp [hv] at h
  | ok w => exact ⟨w, rfl, rfl⟩

theorem ShipPackage_of_err (cap : Int) (s : MemoryStore) (order : Order) (e : Err)
    (h : (ShipPackage cap s order).2 = some e) :
    validateItems cap s order.Requested 0 = .error e ∧ (ShipPackage cap s order).1 = s := by
  unfold ShipPackage at h ⊢
  cases hv : validateItems cap s order.Requested 0 with
  | error e' => simp [hv] at h; simp [h]
  | ok w => simp [hv] at h

theorem ShipPackage_Catalog (cap : Int) (s : MemoryStore) (order : Order) :
    (ShipPackage cap s order).1.Catalog = s.Catalog := by
  unfold ShipPackage; split <;> simp

theorem ShipPackage_PendingOrders (cap : Int) (s : MemoryStore) (order : Order) :
    (ShipPackage cap s order).1.PendingOrders = s.PendingOrders := by
  unfold ShipPackage; split <;> simp

theorem ShipPackage_nonneg (cap : Int) (s : MemoryStore) (order : Order)
    (h : ∀ k, 0 ≤ s.Inventory k) : ∀ k, 0 ≤ (ShipPackage cap s order).1.Inventory k := by
  unfold ShipPackage; split
  · exact h
  · exact deductItems_nonneg _ _ h

theorem ShipPackage_weight (cap : Int) (s : MemoryStore) (order : Order)
    (h : (ShipPackage cap s order).2 = none) (hne : order.Requested ≠ []) :
    itemsWeight s.Catalog order.Requested ≤ cap := by
  obtain ⟨w, hv, _⟩ := ShipPackage_fst_of_ok cap s order h
  obtain ⟨h1, h2⟩ := validateItems_ok cap s _ _ _ hv
  have := h2 hne
  omega

/-! ## ProcessOrder: what every step preserves -/

/-- The three cases of `flushShipment`. -/
theorem flushShipment_cases (cap orderID : Int) (st : PackState) :
    (st.currentShipment = [] ∧ flushShipment cap orderID st = st) ∨
    (st.currentShipment ≠ [] ∧
      (ShipPackage cap st.store ⟨orderID, st.currentShipment⟩).2 = none ∧
      flushShipment cap orderID st =
        { store := (ShipPackage cap st.store ⟨orderID, st.currentShipment⟩).1
          pending := st.pending
          currentShipment := []
          currentWeight := 0
          shipped := st.shipped ++ [⟨orderID, st.currentShipment⟩] }) ∨
    (st.currentShipment ≠ [] ∧
      (∃ e, (ShipPackage cap st.store ⟨orderID, st.currentShipment⟩).2 = some e) ∧
      flushShipment cap orderID st =
        { store := (ShipPackage cap st.store ⟨orderID, st.currentShipment⟩).1
          pending := st.pending ++ st.currentShipment
          currentShipment := []
          currentWeight := 0
          shipped := st.shipped }) := by
  unfold flushShipment
  cases hcur : st.currentShipment with
  | nil => left; simp
  | cons a l =>
    right
    cases hsp : ShipPackage cap st.store ⟨orderID, a :: l⟩ with
    | mk store err =>
      cases err with
      | none => left; simp [hsp]
      | some e => right; simp [hsp]

theorem packLoop_done (cap orderID productID : Int) (product : Product) (fuel : Nat)
    (toShip remaining : Int) (st : PackState) (h : ¬ toShip > 0) :
    packLoop cap orderID productID product fuel toShip remaining st = some (remaining, st) := by
  unfold packLoop; simp [h]

theorem packLoop_zero (cap orderID productID : Int) (product : Product)
    (toShip remaining : Int) (st : PackState) (h : toShip > 0) :
    packLoop cap orderID productID product 0 toShip remaining st = none := by
  unfold packLoop; simp [h]

theorem packLoop_succ (cap orderID productID : Int) (product : Product) (fuel : Nat)
    (toShip remaining : Int) (st st1 : PackState) (h : toShip > 0)
    (hst1 : st1 = if st.currentWeight + product.MassG > cap then flushShipment cap orderID st
      else st) :
    packLoop cap orderID productID product (fuel + 1) toShip remaining st =
      if st1.currentWeight + product.MassG ≤ cap then
        packLoop cap orderID productID product fuel (toShip - 1) (remaining - 1)
          { store := st1.store
            pending := st1.pending
            currentShipment := st1.currentShipment ++ [{ ProductID := productID, Quantity := 1 }]
            currentWeight := st1.currentWeight + product.MassG
            shipped := st1.shipped }
      else
        packLoop cap orderID productID product fuel toShip remaining st1 := by
  subst hst1
  rw [packLoop]; simp only [h, if_true]

theorem processItems_cons (cap : Int) (fuel : Nat) (orderID : Int) (item : Item)
    (rest : List Item) (st : PackState) :
    processItems cap fuel orderID (item :: rest) st =
      match st.store.Catalog item.ProductID with
      | none => some (st, some (.ProductNotFound item.ProductID))
      | some product =>
        match packLoop cap orderID item.ProductID product fuel
            (min item.Quantity (st.store.Inventory item.ProductID)) item.Quantity st with
        | none => none
        | some (remaining, st1) =>
          processItems cap fuel orderID rest
            (if remaining > 0 then
              { st1 with
                pending := st1.pending ++ [{ ProductID := item.ProductID, Quantity := remaining }] }
            else st1) := by
  rw [processItems]
  unfold FindProduct MemoryStore.GetProduct MemoryStore.GetStock
  cases st.store.Catalog item.ProductID <;> rfl

theorem packLoop_stable {cap orderID : Int} {P : PackState → Prop} (hP : Stable cap orderID P)
    (productID : Int) (product : Product) (fuel : Nat) (toShip remaining : Int) (st : PackState)
    (r : Int × PackState)
    (h : packLoop cap orderID productID product fuel toShip remaining st = some r)
    (hst : P st) : P r.2 := by
  induction fuel generalizing toShip remaining st with
  | zero =>
    by_cases ht : toShip > 0
    · rw [packLoop_zero _ _ _ _ _ _ _ ht] at h; cases h
    · rw [packLoop_done _ _ _ _ _ _ _ _ ht] at h; cases h; exact hst
  | succ n ih =>
    by_cases ht : toShip > 0
    · obtain ⟨st1, hst1⟩ : ∃ st1, st1 = if st.currentWeight + product.MassG > cap then
          flushShipment cap orderID st else st := ⟨_, rfl⟩
      rw [packLoop_succ _ _ _ _ _ _ _ _ st1 ht hst1] at h
      have h1 : P st1 := by
        rw [hst1]; split
        · exact hP.flush st hst
        · exact hst
      split at h
      · exact ih _ _ _ h (hP.place _ _ _ h1)
      · exact ih _ _ _ h h1
    · rw [packLoop_done _ _ _ _ _ _ _ _ ht] at h; cases h; exact hst

theorem processItems_stable {cap orderID : Int} {P : PackState → Prop} (hP : Stable cap orderID P)
    (fuel : Nat) (items : List Item) (st : PackState) (r : PackState × Option Err)
    (h : processItems cap fuel orderID items st = some r) (hst : P st) : P r.1 := by
  induction items generalizing st with
  | nil =>
    simp only [processItems, Option.some.injEq] at h
    subst h; exact hst
  | cons it rest ih =>
    rw [processItems_cons] at h
    cases hc : st.store.Catalog it.ProductID with
    | none =>
      simp only [hc, Option.some.injEq] at h
      subst h; exact hst
    | some product =>
      simp only [hc] at h
      cases hloop : packLoop cap orderID it.ProductID product fuel
          (min it.Quantity (st.store.Inventory it.ProductID)) it.Quantity st with
      | none => simp [hloop] at h
      | some res =>
        obtain ⟨remaining, st1⟩ := res
        simp only [hloop] at h
        have h1 : P st1 := packLoop_stable hP _ _ _ _ _ _ _ hloop hst
        refine ih _ h ?_
        split
        · exact hP.queue _ _ h1
        · exact h1

/-- Shape of a call of `ProcessOrder` that returned. -/
theorem ProcessOrder_cases (cap : Int) (fuel : Nat) (s : MemoryStore) (order : Order)
    (r : OrderResult) (h : ProcessOrder cap fuel s order = some r) :
    (order.Requested = [] ∧ r.store = s ∧ r.err = some (.EmptyOrder order.OrderID) ∧
      r.shipped = []) ∨
    (order.Requested ≠ [] ∧ ∃ st e,
      processItems cap fuel order.OrderID order.Requested ⟨s, [], [], 0, []⟩ = some (st, some e) ∧
      r.store = st.store ∧ r.err = some e ∧ r.shipped = st.shipped) ∨
    (order.Requested ≠ [] ∧ ∃ st,
      processItems cap fuel order.OrderID order.Requested ⟨s, [], [], 0, []⟩ = some (st, none) ∧
      r.err = none ∧ r.shipped = (flushShipment cap order.OrderID st).shipped ∧
      r.store.Inventory = (flushShipment cap order.OrderID st).store.Inventory ∧
      r.store.Catalog = (flushShipment cap order.OrderID st).store.Catalog ∧
      r.store.PendingOrders =
        (match (flushShipment cap order.OrderID st).pending with
          | [] => []
          | x :: xs => (flushShipment cap order.OrderID st).store.PendingOrders ++
              [⟨order.OrderID, x :: xs⟩])) := by
  unfold ProcessOrder at h
  cases hreq : order.Requested with
  | nil =>
    left
    simp only [hreq, Option.some.injEq] at h
    subst h; simp
  | cons a l =>
    right
    simp only [hreq] at h
    cases hp : processItems cap fuel order.OrderID (a :: l) ⟨s, [], [], 0, []⟩ with
    | none => simp [hp] at h
    | some res =>
      obtain ⟨st, err⟩ := res
      cases err with
      | some e =>
        left
        simp only [hp, Option.some.injEq] at h
        subst h
        exact ⟨by simp, st, e, rfl, rfl, rfl, rfl⟩
      | none =>
        right
        simp only [hp] at h
        refine ⟨by simp, st, rfl, ?_⟩
        cases hpend : (flushShipment cap order.OrderID st).pending with
        | nil =>
          simp only [hpend, Option.some.injEq] at h
          subst h
          simp [MemoryStore.ClearPendingOrders]
        | cons x xs =>
          simp only [hpend, Option.some.injEq] at h
          subst h
          simp [MemoryStore.AddPendingOrder]

/-! ## ShipPackage: the checks item by item -/

theorem validateItems_ok_iff (cap : Int) (s : MemoryStore) (items : List Item) (w : Int) :
    (∃ w', validateItems cap s items w = .ok w') ↔
      ∀ i item, items[i]? = some item →
        (s.Catalog item.ProductID).isSome = true ∧ item.Quantity ≤ s.Inventory item.ProductID ∧
        w + itemsWeight s.Catalog (items.take (i + 1)) ≤ cap := by
  induction items generalizing w with
  | nil => simp [validateItems]
  | cons it rest ih =>
    simp only [validateItems, MemoryStore.GetProduct, MemoryStore.GetStock]
    cases hc : s.Catalog it.ProductID with
    | none =>
      simp only [false_iff, reduceCtorEq, exists_false]
      intro h
      have := (h 0 it (by simp)).1
      simp [hc] at this
    | some product =>
      simp only
      by_cases hs : s.Inventory it.ProductID < it.Quantity
      · simp only [hs, if_true, false_iff, reduceCtorEq, exists_false]
        intro h
        have := (h 0 it (by simp)).2.1
        omega
      · simp only [hs, if_false]
        by_cases hw : w + product.MassG * it.Quantity > cap
        · simp only [hw, if_true, false_iff, reduceCtorEq, exists_false]
          intro h
          have := (h 0 it (by simp)).2.2
          simp [itemsWeight, hc] at this
          omega
        · simp only [hw, if_false]
          rw [ih]
          constructor
          · intro h i item hi
            cases i with
            | zero =>
              simp only [List.getElem?_cons_zero, Option.some.injEq] at hi
              subst hi
              simp [itemsWeight, hc]
              omega
            | succ j =>
              simp only [List.getElem?_cons_succ] at hi
              obtain ⟨h1, h2, h3⟩ := h j item hi
              refine ⟨h1, h2, ?_⟩
              simp only [List.take_succ_cons, itemsWeight, hc]
              omega
          · intro h j item hj
            obtain ⟨h1, h2, h3⟩ := h (j + 1) item (by simpa using hj)
            refine ⟨h1, h2, ?_⟩
            simp only [List.take_succ_cons, itemsWeight, hc] at h3
            omega

/-- The error that the checks of `ShipPackage` raise on `item` at position `i`
when the weight before the scan was `w`. -/
theorem validateItems_first_violation (cap : Int) (s : MemoryStore) (items : List Item) (w : Int)
    (i : Nat) (item : Item) (hi : items[i]? = some item)
    (hbefore : ∀ j jt, j < i → items[j]? = some jt →
      (s.Catalog jt.ProductID).isSome = true ∧ jt.Quantity ≤ s.Inventory jt.ProductID ∧
      w + itemsWeight s.Catalog (items.take (j + 1)) ≤ cap)
    (hbad : ¬ ((s.Catalog item.ProductID).isSome = true ∧
      item.Quantity ≤ s.Inventory item.ProductID ∧
      w + itemsWeight s.Catalog (items.take (i + 1)) ≤ cap)) :
    validateItems cap s items w = .error
      (match s.Catalog item.ProductID with
        | none => .ProductNotFound item.ProductID
        | some _ =>
          if s.Inventory item.ProductID < item.Quantity then
            .InsufficientStock item.ProductID item.Quantity (s.Inventory item.ProductID)
          else .WeightExceeded (w + itemsWeight s.Catalog (items.take (i + 1)))) := by
  induction items generalizing w i with
  | nil => simp at hi
  | cons it rest ih =>
    cases i with
    | zero =>
      simp only [List.getElem?_cons_zero, Option.some.injEq] at hi
      subst hi
      simp only [validateItems, MemoryStore.GetProduct, MemoryStore.GetStock]
      cases hc : s.Catalog it.ProductID with
      | none => rfl
      | some product =>
        simp only
        by_cases hs : s.Inventory it.ProductID < it.Quantity
        · simp [hs]
        · simp only [hs, if_false]
          have hw : w + product.MassG * it.Quantity > cap := by
            by_contra hcon
            apply hbad
            refine ⟨by simp [hc], by omega, ?_⟩
            simp [itemsWeight, hc]; omega
          simp [hw, itemsWeight, hc]
    | succ j =>
      simp only [List.getElem?_cons_succ] at hi
      obtain ⟨h1, h2, h3⟩ := hbefore 0 it (by omega) (by simp)
      simp only [validateItems, MemoryStore.GetProduct, MemoryStore.GetStock]
      cases hc : s.Catalog it.ProductID with
      | none => simp [hc] at h1
      | some product =>
        simp only [List.take_succ_cons, itemsWeight, hc, List.take_zero] at h3
        have hs : ¬ s.Inventory it.ProductID < it.Quantity := by omega
        have hw : ¬ w + product.MassG * it.Quantity > cap := by omega
        simp only [hs, hw, if_false]
        have key := ih (w + product.MassG * it.Quantity) j hi
          (fun k kt hk hkt => by
            obtain ⟨a, b, c⟩ := hbefore (k + 1) kt (by omega) (by simpa using hkt)
            refine ⟨a, b, ?_⟩
            simp only [List.take_succ_cons, itemsWeight, hc] at c
            omega)
          (fun hgood => by
            apply hbad
            obtain ⟨a, b, c⟩ := hgood
            refine ⟨a, b, ?_⟩
            simp only [List.take_succ_cons, itemsWeight, hc]
            omega)
        rw [key]
        simp only [List.take_succ_cons, itemsWeight, hc, add_assoc]

/-! ## Claims on ShipPackage -/

theorem validateItems_error_kind (cap : Int) (s : MemoryStore) (items : List Item) (w : Int)
    (e : Err) (h : validateItems cap s items w = .error e) :
    (∃ p, e = .ProductNotFound p) ∨ (∃ p q k, e = .InsufficientStock p q k) ∨
      (∃ t, e = .WeightExceeded t) := by
  induction items generalizing w with
  | nil => simp [validateItems] at h
  | cons it rest ih =>
    simp only [validateItems, MemoryStore.GetProduct, MemoryStore.GetStock] at h
    cases hc : s.Catalog it.ProductID with
    | none =>
      simp only [hc, Except.error.injEq] at h
      exact Or.inl ⟨_, h.symm⟩
    | some product =>
      simp only [hc] at h
      split at h
      · simp only [Except.error.injEq] at h
        exact Or.inr (Or.inl ⟨_, _, _, h.symm⟩)
      · split at h
        · simp only [Except.error.injEq] at h
          exact Or.inr (Or.inr ⟨_, h.symm⟩)
        · exact ih _ h

theorem flushShipment_Catalog (cap orderID : Int) (st : PackState) :
    (flushShipment cap orderID st).store.Catalog = st.store.Catalog := by
  rcases flushShipment_cases cap orderID st with h | h | h
  · rw [h.2]
  · rw [h.2.2]; exact ShipPackage_Catalog _ _ _
  · rw [h.2.2]; exact ShipPackage_Catalog _ _ _

theorem flushShipment_PendingOrders (cap orderID : Int) (st : PackState) :
    (flushShipment cap orderID st).store.PendingOrders = st.store.PendingOrders := by
  rcases flushShipment_cases cap orderID st with h | h | h
  · rw [h.2]
  · rw [h.2.2]; exact ShipPackage_PendingOrders _ _ _
  · rw [h.2.2]; exact ShipPackage_PendingOrders _ _ _

theorem stable_Catalog (cap orderID : Int) (cat : Int → Option Product) :
    Stable cap orderID (fun st => st.store.Catalog = cat) where
  flush := fun st h => by rw [flushShipment_Catalog]; exact h
  place := fun _ _ _ h => h
  queue := fun _ _ h => h

theorem stable_PendingOrders (cap orderID : Int) (po : List Order) :
    Stable cap orderID (fun st => st.store.PendingOrders = po) where
  flush := fun st h => by rw [flushShipment_PendingOrders]; exact h
  place := fun _ _ _ h => h
  queue := fun _ _ h => h

theorem stable_weight (cap orderID : Int) (cat : Int → Option Product) :
    Stable cap orderID (fun st => st.store.Catalog = cat ∧
      ∀ sh ∈ st.shipped, itemsWeight cat sh.Requested ≤ cap) where
  flush := fun st h => by
    rcases flushShipment_cases cap orderID st with h1 | h1 | h1
    · rw [h1.2]; exact h
    · rw [h1.2.2]
      refine ⟨by rw [ShipPackage_Catalog]; exact h.1, ?_⟩
      intro sh hsh
      simp only [List.mem_append, List.mem_singleton] at hsh
      rcases hsh with hsh | hsh
      · exact h.2 sh hsh
      · subst hsh
        have := ShipPackage_weight cap st.store ⟨orderID, st.currentShipment⟩ h1.2.1 h1.1
        rw [h.1] at this
        exact this
    · rw [h1.2.2]
      exact ⟨by rw [ShipPackage_Catalog]; exact h.1, h.2⟩
  place := fun _ _ _ h => h
  queue := fun _ _ h => h

theorem stable_nonneg (cap orderID : Int) :
    Stable cap orderID (fun st => ∀ k, 0 ≤ st.store.Inventory k) where
  flush := fun st h => by
    rcases flushShipment_cases cap orderID st with h1 | h1 | h1
    · rw [h1.2]; exact h
    · rw [h1.2.2]; exact ShipPackage_nonneg _ _ _ h
    · rw [h1.2.2]; exact ShipPackage_nonneg _ _ _ h
  place := fun _ _ _ h => h
  queue := fun _ _ h => h

/-- C1. Whenever `ShipPackage` returns success, the sum over the items of the
shipment of unit mass times quantity is at most the cap (a non-negative
constant); hence every shipment that `ProcessOrder` executes successfully
weighs at most the cap. -/
theorem shipment_weight_within_cap (cap : Int) (hcap : 0 ≤ cap) :
    (∀ (s : MemoryStore) (order : Order), (ShipPackage cap s order).2 = none →
      itemsWeight s.Catalog order.Requested ≤ cap) ∧
    (∀ (fuel : Nat) (s : MemoryStore) (order : Order) (r : OrderResult),
      ProcessOrder cap fuel s order = some r →
      ∀ sh ∈ r.shipped, itemsWeight s.Catalog sh.Requested ≤ cap) := by
  constructor
  · intro s order h
    by_cases hne : order.Requested = []
    · rw [hne]; exact hcap
    · exact ShipPackage_weight cap s order h hne
  · intro fuel s order r h sh hsh
    rcases ProcessOrder_cases cap fuel s order r h with h1 | h1 | h1
    · rw [h1.2.2.2] at hsh; simp at hsh
    · obtain ⟨_, st, e, hp, _, _, hs⟩ := h1
      have := processItems_stable (stable_weight cap order.OrderID s.Catalog) fuel _ _ _ hp
        ⟨rfl, by simp⟩
      rw [hs] at hsh
      exact this.2 sh hsh
    · obtain ⟨_, st, hp, _, hs, _⟩ := h1
      have := processItems_stable (stable_weight cap order.OrderID s.Catalog) fuel _ _ _ hp
        ⟨rfl, by simp⟩
      have := (stable_weight cap order.OrderID s.Catalog).flush _ this
      rw [hs] at hsh
      exact this.2 sh hsh

/-- Witness of C1: the shipment of two units of product 0 and one unit of
product 10 is accepted under a cap of 1800 grams and weighs at most 1800. -/
theorem shipment_weight_within_cap_witness :
    (0 : Int) ≤ 1800 ∧ (ShipPackage 1800 stockedStore ⟨123, [⟨0, 2⟩, ⟨10, 1⟩]⟩).2 = none ∧
      itemsWeight stockedStore.Catalog [⟨0, 2⟩, ⟨10, 1⟩] ≤ 1800 :=
  ⟨by decide, by decide,
    (shipment_weight_within_cap 1800 (by decide)).1 stockedStore ⟨123, [⟨0, 2⟩, ⟨10, 1⟩]⟩
      (by decide)⟩

/-- C7. When `ShipPackage` returns an error, the error is one of unknown
product, insufficient stock and weight exceeded, and the whole store (stock
ledger, catalog and pending orders) is the one before the call. -/
theorem ShipPackage_error_keeps_store (cap : Int) (s : MemoryStore) (order : Order) (e : Err)
    (h : (ShipPackage cap s order).2 = some e) :
    (ShipPackage cap s order).1 = s ∧
    ((∃ p, e = .ProductNotFound p) ∨ (∃ p q k, e = .InsufficientStock p q k) ∨
      (∃ t, e = .WeightExceeded t)) := by
  obtain ⟨hv, hs⟩ := ShipPackage_of_err cap s order e h
  exact ⟨hs, validateItems_error_kind cap s _ _ e hv⟩

/-- Witness of C7: on a fresh store the shipment of product 999 fails with
the unknown-product error and the store stays the fresh store. -/
theorem ShipPackage_error_keeps_store_witness :
    (ShipPackage 1800 NewMemoryStore ⟨404, [⟨999, 1⟩]⟩).2 = some (.ProductNotFound 999) ∧
    (ShipPackage 1800 NewMemoryStore ⟨404, [⟨999, 1⟩]⟩).1 = NewMemoryStore :=
  ⟨by decide,
    (ShipPackage_error_keeps_store 1800 NewMemoryStore ⟨404, [⟨999, 1⟩]⟩ (.ProductNotFound 999)
      (by decide)).1⟩

/-- C8. `ShipPackage` returns success exactly when every item, in order, names
a catalog product, asks for at most the current stock of its product and keeps
the cumulative weight up to and including itself within the cap; and when some
item is the first in order to break one of these, `ShipPackage` returns the
error of that item (unknown product, else insufficient stock, else weight
exceeded with the cumulative weight reached). -/
theorem ShipPackage_fails_at_first_violation (cap : Int) (s : MemoryStore) (order : Order) :
    ((ShipPackage cap s order).2 = none ↔
      ∀ i item, order.Requested[i]? = some item →
        (s.Catalog item.ProductID).isSome = true ∧
        item.Quantity ≤ s.Inventory item.ProductID ∧
        itemsWeight s.Catalog (order.Requested.take (i + 1)) ≤ cap) ∧
    (∀ i item, order.Requested[i]? = some item →
      (∀ j jt, j < i → order.Requested[j]? = some jt →
        (s.Catalog jt.ProductID).isSome = true ∧
        jt.Quantity ≤ s.Inventory jt.ProductID ∧
        itemsWeight s.Catalog (order.Requested.take (j + 1)) ≤ cap) →
      ¬ ((s.Catalog item.ProductID).isSome = true ∧
        item.Quantity ≤ s.Inventory item.ProductID ∧
        itemsWeight s.Catalog (order.Requested.take (i + 1)) ≤ cap) →
      (ShipPackage cap s order).2 = some
        (match s.Catalog item.ProductID with
          | none => .ProductNotFound item.ProductID
          | some _ =>
            if s.Inventory item.ProductID < item.Quantity then
              .InsufficientStock item.ProductID item.Quantity (s.Inventory item.ProductID)
            else .WeightExceeded (itemsWeight s.Catalog (order.Requested.take (i + 1))))) := by
  constructor
  · have key := validateItems_ok_iff cap s order.Requested 0
    simp only [zero_add] at key
    rw [← key]
    unfold ShipPackage
    cases hv : validateItems cap s order.Requested 0 with
    | error e => simp
    | ok w => simp
  · intro i item hi hbefore hbad
    have key := validateItems_first_violation cap s order.Requested 0 i item hi
      (by simpa using hbefore) (by simpa using hbad)
    simp only [zero_add] at key
    unfold ShipPackage
    rw [key]

/-- Witness of C8: with one unit of product 3 in stock, the shipment of two
units fails at its first item with the insufficient-stock error. -/
theorem ShipPackage_fails_at_first_violation_witness :
    (ShipPackage 1800 cryoStore ⟨888, [⟨3, 2⟩]⟩).2 = some (.InsufficientStock 3 2 1) :=
  (ShipPackage_fails_at_first_violation 1800 cryoStore ⟨888, [⟨3, 2⟩]⟩).2 0 ⟨3, 2⟩ rfl
    (fun j _ hj _ => absurd hj (Nat.not_lt_zero j)) (by decide)

/-! ## Claims on ProcessOrder -/

theorem processItems_error_iff (cap : Int) (fuel : Nat) (orderID : Int) (items : List Item)
    (st : PackState) (r : PackState × Option Err)
    (h : processItems cap fuel orderID items st = some r) :
    (r.2 = none ↔ ∀ item ∈ items, (st.store.Catalog item.ProductID).isSome = true) ∧
    (∀ e, r.2 = some e → ∃ item ∈ items, st.store.Catalog item.ProductID = none ∧
      e = .ProductNotFound item.ProductID) := by
  induction items generalizing st with
  | nil =>
    simp only [processItems, Option.some.injEq] at h
    subst h; simp
  | cons it rest ih =>
    rw [processItems_cons] at h
    cases hc : st.store.Catalog it.ProductID with
    | none =>
      simp only [hc, Option.some.injEq] at h
      subst h
      simp [hc]
    | some product =>
      simp only [hc] at h
      cases hloop : packLoop cap orderID it.ProductID product fuel
          (min it.Quantity (st.store.Inventory it.ProductID)) it.Quantity st with
      | none => simp [hloop] at h
      | some res =>
        obtain ⟨remaining, st1⟩ := res
        simp only [hloop] at h
        have hcat : st1.store.Catalog = st.store.Catalog :=
          packLoop_stable (stable_Catalog cap orderID st.store.Catalog) _ _ _ _ _ _ _ hloop rfl
        have := ih _ h
        have hcat2 : (if remaining > 0 then
            ({ st1 with pending := st1.pending ++
              [{ ProductID := it.ProductID, Quantity := remaining }] } : PackState)
            else st1).store.Catalog = st.store.Catalog := by
          split <;> exact hcat
        rw [hcat2] at this
        obtain ⟨h1, h2⟩ := this
        constructor
        · rw [h1]; simp [hc]
        · intro e he
          obtain ⟨item, hm, hn, hee⟩ := h2 e he
          exact ⟨item, List.mem_cons_of_mem _ hm, hn, hee⟩

/-- C6. When `ProcessOrder` returns, it returns an error exactly when the order
has no items or some item names a product that is absent from the catalog (the
error is then the empty-order error, or the not-found error of such an item);
in every other case it returns success. -/
theorem ProcessOrder_error_iff (cap : Int) (fuel : Nat) (s : MemoryStore) (order : Order)
    (r : OrderResult) (h : ProcessOrder cap fuel s order = some r) :
    (r.err ≠ none ↔
      order.Requested = [] ∨ ∃ item ∈ order.Requested, s.Catalog item.ProductID = none) ∧
    (∀ e, r.err = some e → e = .EmptyOrder order.OrderID ∨
      ∃ item ∈ order.Requested, s.Catalog item.ProductID = none ∧
        e = .ProductNotFound item.ProductID) := by
  rcases ProcessOrder_cases cap fuel s order r h with h1 | h1 | h1
  · obtain ⟨hreq, _, herr, _⟩ := h1
    constructor
    · simp [herr, hreq]
    · intro e he
      rw [herr] at he
      left; simpa using he.symm
  · obtain ⟨hreq, st, e, hp, _, herr, _⟩ := h1
    obtain ⟨h1, h2⟩ := processItems_error_iff cap fuel _ _ _ _ hp
    obtain ⟨item, hm, hn, hee⟩ := h2 e rfl
    constructor
    · simp only [herr, ne_eq, reduceCtorEq, not_false_eq_true, true_iff]
      exact Or.inr ⟨item, hm, hn⟩
    · intro e' he'
      rw [herr] at he'
      cases he'
      exact Or.inr ⟨item, hm, hn, hee⟩
  · obtain ⟨hreq, st, hp, herr, _⟩ := h1
    obtain ⟨h1, h2⟩ := processItems_error_iff cap fuel _ _ _ _ hp
    have hall := h1.mp rfl
    constructor
    · simp only [herr, ne_eq, not_true_eq_false, false_iff, not_or]
      refine ⟨hreq, ?_⟩
      rintro ⟨item, hm, hn⟩
      have := hall item hm
      simp [hn] at this
    · intro e he
      rw [herr] at he; cases he

/-- Witness of C6: order 123 on the stocked store returns, with success although
part of it becomes backlog, and none of its products is missing from the
catalog. -/
theorem ProcessOrder_error_iff_witness :
    ∃ r, ProcessOrder 1800 3 stockedStore order123 = some r ∧ r.err = none ∧
      (r.err ≠ none ↔ order123.Requested = [] ∨
        ∃ item ∈ order123.Requested, stockedStore.Catalog item.ProductID = none) :=
  ⟨(ProcessOrder 1800 3 stockedStore order123).get (by decide), (Option.some_get _).symm,
    by decide,
    (ProcessOrder_error_iff 1800 3 stockedStore order123 _ (Option.some_get _).symm).1⟩

theorem ProcessOrder_nonneg (cap : Int) (fuel : Nat) (s : MemoryStore) (order : Order)
    (r : OrderResult) (h : ProcessOrder cap fuel s order = some r)
    (hs : ∀ k, 0 ≤ s.Inventory k) : ∀ k, 0 ≤ r.store.Inventory k := by
  rcases ProcessOrder_cases cap fuel s order r h with h1 | h1 | h1
  · rw [h1.2.1]; exact hs
  · obtain ⟨_, st, e, hp, hst, _, _⟩ := h1
    rw [hst]
    exact processItems_stable (stable_nonneg cap order.OrderID) fuel _ _ _ hp hs
  · obtain ⟨_, st, hp, _, _, hinv, _⟩ := h1
    rw [hinv]
    exact (stable_nonneg cap order.OrderID).flush _
      (processItems_stable (stable_nonneg cap order.OrderID) fuel _ _ _ hp hs)

theorem AddStock_nonneg (s : MemoryStore) (p q : Int) (hq : 0 ≤ q)
    (hs : ∀ k, 0 ≤ s.Inventory k) : ∀ k, 0 ≤ (s.AddStock p q).Inventory k := by
  intro k
  simp only [MemoryStore.AddStock]
  split
  · have := hs p; omega
  · exact hs k

theorem restockItems_nonneg (restock : List Item) (s : MemoryStore)
    (hq : ∀ item ∈ restock, 0 ≤ item.Quantity) (hs : ∀ k, 0 ≤ s.Inventory k) :
    ∀ k, 0 ≤ (restockItems s restock).Inventory k := by
  induction restock generalizing s with
  | nil => exact hs
  | cons it rest ih =>
    simp only [restockItems, MemoryStore.GetProduct]
    have hrest : ∀ item ∈ rest, 0 ≤ item.Quantity :=
      fun item hm => hq item (List.mem_cons_of_mem _ hm)
    split
    · exact ih s hrest hs
    · exact ih _ hrest (AddStock_nonneg s _ _ (hq it (List.mem_cons_self _ _)) hs)

theorem reprocessPending_nonneg (cap : Int) (fuel : Nat) (orders : List Order)
    (s : MemoryStore) (shipped : List Order) (r : MemoryStore × List Order)
    (h : reprocessPending cap fuel orders s shipped = some r)
    (hs : ∀ k, 0 ≤ s.Inventory k) : ∀ k, 0 ≤ r.1.Inventory k := by
  induction orders generalizing s shipped with
  | nil =>
    simp only [reprocessPending, Option.some.injEq] at h
    subst h; exact hs
  | cons o rest ih =>
    simp only [reprocessPending] at h
    cases hp : ProcessOrder cap fuel s o with
    | none => simp [hp] at h
    | some res =>
      simp only [hp] at h
      exact ih _ _ h (ProcessOrder_nonneg cap fuel s o res hp hs)

theorem ProcessRestock_nonneg (cap : Int) (fuel : Nat) (s : MemoryStore) (restock : List Item)
    (r : OrderResult) (h : ProcessRestock cap fuel s restock = some r)
    (hq : ∀ item ∈ restock, 0 ≤ item.Quantity) (hs : ∀ k, 0 ≤ s.Inventory k) :
    ∀ k, 0 ≤ r.store.Inventory k := by
  unfold ProcessRestock at h
  cases restock with
  | nil =>
    simp only [Option.some.injEq] at h
    subst h; exact hs
  | cons a l =>
    simp only at h
    cases hp : reprocessPending cap fuel (restockItems s (a :: l)).GetPendingOrders
        (restockItems s (a :: l)).ClearPendingOrders [] with
    | none => simp [hp] at h
    | some res =>
      obtain ⟨s3, shipped⟩ := res
      simp only [hp, Option.some.injEq] at h
      subst h
      exact reprocessPending_nonneg cap fuel _ _ _ _ hp (restockItems_nonneg _ s hq hs)

theorem flushShipment_currentWeight (cap orderID : Int) (st : PackState) :
    (flushShipment cap orderID st).currentWeight = st.currentWeight ∨
    (flushShipment cap orderID st).currentWeight = 0 := by
  rcases flushShipment_cases cap orderID st with h | h | h
  · left; rw [h.2]
  · right; rw [h.2.2]
  · right; rw [h.2.2]

/-- A unit heavier than the cap is never placed: once the running weight plus
its mass exceeds the cap, no amount of fuel lets the loop finish. -/
theorem packLoop_overweight (cap orderID productID : Int) (product : Product)
    (hm : cap < product.MassG) (fuel : Nat) (toShip remaining : Int) (st : PackState)
    (ht : toShip > 0) (hw : st.currentWeight + product.MassG > cap) :
    packLoop cap orderID productID product fuel toShip remaining st = none := by
  induction fuel generalizing st with
  | zero => exact packLoop_zero _ _ _ _ _ _ _ ht
  | succ n ih =>
    obtain ⟨st1, hst1⟩ : ∃ st1, st1 = if st.currentWeight + product.MassG > cap then
        flushShipment cap orderID st else st := ⟨_, rfl⟩
    rw [packLoop_succ _ _ _ _ _ _ _ _ st1 ht hst1]
    have h1 : st1.currentWeight + product.MassG > cap := by
      rw [hst1, if_pos hw]
      rcases flushShipment_currentWeight cap orderID st with h | h <;> rw [h] <;> omega
    rw [if_neg (by omega)]
    exact ih st1 h1

/-- C3 (as the code behaves). When the first item of an order asks for a
positive quantity of a catalog product that has positive stock and a unit mass
above the cap, `ProcessOrder` does not return, whatever the fuel: the packing
loop flushes and retries the same unit for ever. -/
theorem ProcessOrder_overweight_never_returns (cap : Int) (fuel : Nat) (s : MemoryStore)
    (orderID p q : Int) (rest : List Item) (product : Product)
    (hc : s.Catalog p = some product) (hm : cap < product.MassG) (hq : 0 < q)
    (hstock : 0 < s.Inventory p) :
    ProcessOrder cap fuel s ⟨orderID, ⟨p, q⟩ :: rest⟩ = none := by
  unfold ProcessOrder
  simp only [processItems_cons, hc]
  rw [packLoop_overweight cap orderID p product hm fuel _ q _ (by simp; omega) (by simp; omega)]

/-- Witness of C3: with a cap of 1800 grams, an order for one unit of the
1801-gram product, of which one unit is in stock, is still running after a
thousand iterations. -/
theorem ProcessOrder_overweight_never_returns_witness :
    ProcessOrder 1800 1000 heavyStore heavyOrder = none :=
  ProcessOrder_overweight_never_returns 1800 1000 heavyStore 1001 1 1 [] ⟨1, "Heavy Item", 1801⟩
    (by decide) (by decide) (by decide) (by decide)

/-- Counterexample to C4: with order 7 pending, processing order 8 for one unit
of the out-of-stock product 10 succeeds and leaves two orders in the backlog. -/
theorem ProcessOrder_backlog_two_orders :
    ∃ r, ProcessOrder 1800 1 backlogStore order8 = some r ∧ r.err = none ∧
      r.store.PendingOrders = [⟨7, [⟨0, 1⟩]⟩, ⟨8, [⟨10, 1⟩]⟩] ∧
      ¬ r.store.PendingOrders.length ≤ 1 :=
  ⟨(ProcessOrder 1800 1 backlogStore order8).get (by decide), (Option.some_get _).symm,
    by decide, by decide, by decide⟩

/-- C4 (amended). After a call of `ProcessOrder` that returns success, the
backlog is the backlog held before with the order of the same id and the
unshipped remainder appended when that remainder is non-empty, and holds no
order at all when the remainder is empty; in particular it holds at most one
order when it was empty before. -/
theorem ProcessOrder_backlog_appended (cap : Int) (fuel : Nat) (s : MemoryStore) (order : Order)
    (r : OrderResult) (h : ProcessOrder cap fuel s order = some r) (hok : r.err = none) :
    ∃ rem, orderRemainder cap fuel s order = some rem ∧
      (rem ≠ [] → r.store.PendingOrders = s.PendingOrders ++ [⟨order.OrderID, rem⟩]) ∧
      (rem = [] → r.store.PendingOrders = []) ∧
      (s.PendingOrders = [] → r.store.PendingOrders.length ≤ 1) := by
  rcases ProcessOrder_cases cap fuel s order r h with h1 | h1 | h1
  · rw [h1.2.2.1] at hok; cases hok
  · obtain ⟨_, st, e, _, _, herr, _⟩ := h1
    rw [herr] at hok; cases hok
  · obtain ⟨_, st, hp, _, _, _, _, hpo⟩ := h1
    have hkeep : (flushShipment cap order.OrderID st).store.PendingOrders = s.PendingOrders :=
      (stable_PendingOrders cap order.OrderID s.PendingOrders).flush _
        (processItems_stable (stable_PendingOrders cap order.OrderID s.PendingOrders)
          fuel _ _ _ hp rfl)
    refine ⟨(flushShipment cap order.OrderID st).pending, by simp [orderRemainder, hp], ?_⟩
    cases hpend : (flushShipment cap order.OrderID st).pending with
    | nil =>
      rw [hpend] at hpo
      simp [hpo]
    | cons x xs =>
      rw [hpend, hkeep] at hpo
      refine ⟨fun _ => hpo, by simp, fun hs => ?_⟩
      rw [hpo, hs]; simp

/-- Witness of C4 (amended): on the store with order 7 pending, order 8 returns
success with remainder one unit of product 10, appended behind order 7. -/
theorem ProcessOrder_backlog_appended_witness :
    ∃ r, ProcessOrder 1800 1 backlogStore order8 = some r ∧ r.err = none ∧
      ∃ rem, orderRemainder 1800 1 backlogStore order8 = some rem ∧
        (rem ≠ [] → r.store.PendingOrders = backlogStore.PendingOrders ++ [⟨8, rem⟩]) ∧
        (rem = [] → r.store.PendingOrders = []) ∧
        (backlogStore.PendingOrders = [] → r.store.PendingOrders.length ≤ 1) :=
  ⟨(ProcessOrder 1800 1 backlogStore order8).get (by decide), (Option.some_get _).symm,
    by decide,
    ProcessOrder_backlog_appended 1800 1 backlogStore order8 _ (Option.some_get _).symm
      (by decide)⟩

/-- C2 (at the failing input). With three units of product 10 in stock, the
order with two lines of two units of product 10 returns success; four units are
in the executed shipment while the stock drops by three only. -/
theorem ProcessOrder_repeated_product_oversells :
    (ProcessOrder 1800 4 threeUnitStore repeatedOrder).map
      (fun r => (r.err, threeUnitStore.Inventory 10 - r.store.Inventory 10,
        shippedQty 10 r.shipped)) = some (none, 3, 4) := by
  decide

/-- C9 (at the failing input). With three units of product 10 in stock,
`ShipPackage` accepts the shipment with two lines of two units of product 10,
four units in all, and the stock of product 10 afterwards is 1, not 3 - 4. -/
theorem ShipPackage_repeated_product_underdeducts :
    (ShipPackage 1800 threeUnitStore repeatedOrder).2 = none ∧
    threeUnitStore.Inventory 10 = 3 ∧ itemsQty 10 repeatedOrder.Requested = 4 ∧
    (ShipPackage 1800 threeUnitStore repeatedOrder).1.Inventory 10 = 1 := by
  decide

/-! ## ProcessOrder on distinct products: the packing invariant -/

theorem itemsQty_append (k : Int) (l1 l2 : List Item) :
    itemsQty k (l1 ++ l2) = itemsQty k l1 + itemsQty k l2 := by
  induction l1 with
  | nil => simp [itemsQty]
  | cons a l ih =>
    show (if a.ProductID = k then a.Quantity else 0) + itemsQty k (l ++ l2) =
      (if a.ProductID = k then a.Quantity else 0) + itemsQty k l + itemsQty k l2
    rw [ih]; omega

theorem shippedQty_append (k : Int) (l1 l2 : List Order) :
    shippedQty k (l1 ++ l2) = shippedQty k l1 + shippedQty k l2 := by
  induction l1 with
  | nil => simp [shippedQty]
  | cons a l ih =>
    show itemsQty k a.Requested + shippedQty k (l ++ l2) =
      itemsQty k a.Requested + shippedQty k l + shippedQty k l2
    rw [ih]; omega

theorem itemsQty_nonneg (k : Int) (l : List Item) (h : ∀ item ∈ l, 0 ≤ item.Quantity) :
    0 ≤ itemsQty k l := by
  induction l with
  | nil => simp [itemsQty]
  | cons a l ih =>
    simp only [itemsQty]
    have h1 := h a (List.mem_cons_self _ _)
    have h2 := ih (fun item hm => h item (List.mem_cons_of_mem _ hm))
    split <;> omega

theorem validateItems_append (cap : Int) (s : MemoryStore) (l1 l2 : List Item) (w w1 : Int)
    (h : validateItems cap s l1 w = .ok w1) :
    validateItems cap s (l1 ++ l2) w = validateItems cap s l2 w1 := by
  induction l1 generalizing w with
  | nil =>
    simp only [validateItems, Except.ok.injEq] at h
    subst h; rfl
  | cons it rest ih =>
    simp only [validateItems, MemoryStore.GetProduct, MemoryStore.GetStock,
      List.cons_append] at h ⊢
    cases hc : s.Catalog it.ProductID with
    | none => simp [hc] at h
    | some product =>
      simp only [hc] at h ⊢
      split at h
      · cases h
      · rename_i hs
        rw [if_neg hs]
        split at h
        · cases h
        · rename_i hw
          rw [if_neg hw]
          exact ih _ h

/-- When every line asks for a non-negative quantity and, for every product
of which something is asked, the stock covers the total asked, the deductions
lower each stock entry by exactly that total. -/
theorem deductItems_exact (items : List Item) (s : MemoryStore)
    (hq : ∀ item ∈ items, 0 ≤ item.Quantity)
    (hb : ∀ k, itemsQty k items = 0 ∨ itemsQty k items ≤ s.Inventory k) :
    ∀ k, (deductItems s items).Inventory k = s.Inventory k - itemsQty k items := by
  induction items generalizing s with
  | nil => intro k; simp [deductItems, itemsQty]
  | cons it rest ih =>
    have hrest : ∀ item ∈ rest, 0 ≤ item.Quantity :=
      fun item hm => hq item (List.mem_cons_of_mem _ hm)
    have hq0 := hq it (List.mem_cons_self _ _)
    have hnn := fun k => itemsQty_nonneg k rest hrest
    have hstep : ∀ k, (s.DeductStock it.ProductID it.Quantity).Inventory k =
        s.Inventory k - (if it.ProductID = k then it.Quantity else 0) := by
      intro k
      have hhead := hb it.ProductID
      simp only [itemsQty, if_true] at hhead
      have := hnn it.ProductID
      unfold MemoryStore.DeductStock
      by_cases hk : k = it.ProductID
      · subst hk
        split
        · simp only [if_true]; omega
        · simp
      · have hk2 : ¬ it.ProductID = k := fun e => hk e.symm
        split <;> simp [hk, hk2]
    intro k
    simp only [deductItems]
    rw [ih (s.DeductStock it.ProductID it.Quantity) hrest]
    · rw [hstep k]
      simp only [itemsQty]
      omega
    · intro j
      rw [hstep j]
      have hj := hb j
      simp only [itemsQty] at hj
      have := hnn j
      by_cases hk : it.ProductID = j
      · simp only [hk, if_true] at hj ⊢
        omega
      · simp only [hk, if_false] at hj ⊢
        omega

theorem PackInv.congr {cap : Int} {s0 : MemoryStore} {placed placed2 : Int → Int}
    {pend pend2 : List Item} {st : PackState} (h : PackInv cap s0 placed pend st)
    (hp : ∀ k, placed2 k = placed k) (hq : pend2 = pend) : PackInv cap s0 placed2 pend2 st := by
  have : placed2 = placed := funext hp
  subst this; subst hq; exact h

theorem PackInv.curNonneg {cap : Int} {s0 : MemoryStore} {placed : Int → Int}
    {pend : List Item} {st : PackState} (h : PackInv cap s0 placed pend st) (k : Int) :
    0 ≤ itemsQty k st.currentShipment :=
  itemsQty_nonneg k _ (fun item hm => by rw [h.units item hm]; decide)

/-- The invariant makes every flush succeed: afterwards the shipment being
accumulated is empty with weight zero, and the invariant still holds. -/
theorem PackInv.flush {cap : Int} {s0 : MemoryStore} {placed : Int → Int}
    {pend : List Item} {st : PackState} (orderID : Int) (h : PackInv cap s0 placed pend st) :
    PackInv cap s0 placed pend (flushShipment cap orderID st) ∧
    (flushShipment cap orderID st).currentShipment = [] ∧
    (flushShipment cap orderID st).currentWeight = 0 := by
  rcases flushShipment_cases cap orderID st with h1 | h1 | h1
  · rw [h1.2]
    refine ⟨h, h1.1, ?_⟩
    have hv := h.valid
    rw [h1.1] at hv
    simp only [validateItems, Except.ok.injEq] at hv
    exact hv.symm
  · obtain ⟨_, hok, heq⟩ := h1
    rw [heq]
    refine ⟨?_, rfl, rfl⟩
    obtain ⟨w, _, hst⟩ := ShipPackage_fst_of_ok cap st.store _ hok
    have hinv : ∀ k, (ShipPackage cap st.store ⟨orderID, st.currentShipment⟩).1.Inventory k =
        st.store.Inventory k - itemsQty k st.currentShipment := by
      rw [hst]
      apply deductItems_exact
      · intro item hm; rw [h.units item hm]; decide
      · intro k
        show itemsQty k st.currentShipment = 0 ∨
          itemsQty k st.currentShipment ≤ st.store.Inventory k
        have := h.stock k
        have := h.count k
        have := h.shippedNonneg k
        have := h.curNonneg k
        rcases h.bound k with hb | hb
        · left; omega
        · right; omega
    constructor
    · simp only [ShipPackage_Catalog]; exact h.catalog
    · simp only [ShipPackage_PendingOrders]; exact h.pendingOrders
    · intro k
      simp only [hinv k, shippedQty_append, shippedQty]
      have := h.stock k
      omega
    · intro k
      simp only [shippedQty_append, shippedQty, itemsQty]
      have := h.count k
      omega
    · exact h.bound
    · intro k
      simp only [shippedQty_append, shippedQty]
      have := h.shippedNonneg k
      have := h.curNonneg k
      omega
    · intro item hm; simp at hm
    · rfl
    · exact h.pending
  · obtain ⟨_, ⟨e, he⟩, _⟩ := h1
    have := (ShipPackage_of_err cap st.store _ e he).1
    rw [h.valid] at this
    cases this

/-- Placing one more unit of a catalog product keeps the invariant when the
unit fits the cap and the stock. -/
theorem PackInv.place {cap : Int} {s0 : MemoryStore} {placed : Int → Int}
    {pend : List Item} {st : PackState} (h : PackInv cap s0 placed pend st)
    (p : Int) (product : Product) (hc : s0.Catalog p = some product)
    (hw : st.currentWeight + product.MassG ≤ cap) (hroom : placed p + 1 ≤ s0.Inventory p) :
    PackInv cap s0 (fun k => if k = p then placed p + 1 else placed k) pend
      { store := st.store
        pending := st.pending
        currentShipment := st.currentShipment ++ [{ ProductID := p, Quantity := 1 }]
        currentWeight := st.currentWeight + product.MassG
        shipped := st.shipped } := by
  constructor
  · exact h.catalog
  · exact h.pendingOrders
  · exact h.stock
  · intro k
    simp only [itemsQty_append, itemsQty]
    have := h.count k
    by_cases hk : k = p
    · subst hk; simp; omega
    · have hk2 : ¬ p = k := fun h => hk h.symm
      simp [hk, hk2]; omega
  · intro k
    show (if k = p then placed p + 1 else placed k) = 0 ∨
      (if k = p then placed p + 1 else placed k) ≤ s0.Inventory k
    split
    · rename_i hk; subst hk; exact Or.inr hroom
    · exact h.bound k
  · exact h.shippedNonneg
  · intro item hm
    simp only [List.mem_append, List.mem_singleton] at hm
    rcases hm with hm | hm
    · exact h.units item hm
    · subst hm; rfl
  · show validateItems cap st.store (st.currentShipment ++ [{ ProductID := p, Quantity := 1 }]) 0 =
      .ok (st.currentWeight + product.MassG)
    rw [validateItems_append cap st.store _ _ 0 _ h.valid]
    have hstock := h.stock p
    have hcount := h.count p
    have hcur := h.curNonneg p
    have hs : ¬ st.store.Inventory p < 1 := by omega
    have hw2 : ¬ st.currentWeight + product.MassG > cap := by omega
    simp only [validateItems, MemoryStore.GetProduct, MemoryStore.GetStock, h.catalog, hc, hs,
      hw2, if_false, mul_one]
  · exact h.pending

/-- Under the invariant, with a unit mass within the cap and enough stock and
fuel, the packing loop places all `n` units and returns. -/
theorem packLoop_places_all (cap orderID : Int) (s0 : MemoryStore) (p : Int) (product : Product)
    (hc : s0.Catalog p = some product) (hm : product.MassG ≤ cap) (pend : List Item)
    (n : Nat) (fuel : Nat) (remaining : Int) (placed : Int → Int) (st : PackState)
    (h : PackInv cap s0 placed pend st) (hfuel : n ≤ fuel)
    (hroom : placed p + n ≤ s0.Inventory p) :
    ∃ st2, packLoop cap orderID p product fuel n remaining st = some (remaining - n, st2) ∧
      PackInv cap s0 (fun k => if k = p then placed p + n else placed k) pend st2 := by
  induction n generalizing fuel remaining placed st with
  | zero =>
    refine ⟨st, ?_, h.congr (fun k => by split <;> simp_all) rfl⟩
    rw [packLoop_done _ _ _ _ _ _ _ _ (by simp)]
    simp
  | succ n ih =>
    obtain ⟨f, rfl⟩ : ∃ f, fuel = f + 1 := ⟨fuel - 1, by omega⟩
    obtain ⟨st1, hst1⟩ : ∃ st1, st1 = if st.currentWeight + product.MassG > cap then
        flushShipment cap orderID st else st := ⟨_, rfl⟩
    have hpos : ((n + 1 : Nat) : Int) > 0 := by omega
    rw [packLoop_succ _ _ _ _ _ _ _ _ st1 hpos hst1]
    have h1 : PackInv cap s0 placed pend st1 ∧ st1.currentWeight + product.MassG ≤ cap := by
      rw [hst1]
      split
      · obtain ⟨a, _, c⟩ := h.flush orderID
        exact ⟨a, by rw [c]; omega⟩
      · exact ⟨h, by omega⟩
    rw [if_pos h1.2]
    have h2 := h1.1.place p product hc h1.2 (by push_cast at hroom; omega)
    obtain ⟨st2, hloop, hinv2⟩ := ih f (remaining - 1) _ _ h2 (by omega)
      (by simp only [if_true]; push_cast at hroom; omega)
    refine ⟨st2, ?_, hinv2.congr (fun k => ?_) rfl⟩
    · have e1 : ((n + 1 : Nat) : Int) - 1 = (n : Int) := by push_cast; omega
      have e2 : remaining - ((n + 1 : Nat) : Int) = remaining - 1 - (n : Int) := by
        push_cast; omega
      rw [e1, e2]
      exact hloop
    · by_cases hk : k = p
      · simp only [hk, if_true]; push_cast; omega
      · simp only [hk, if_false]

theorem itemsQty_shippableItems_of_not_mem (s : MemoryStore) (items : List Item) (k : Int)
    (h : ∀ item ∈ items, item.ProductID ≠ k) : itemsQty k (shippableItems s items) = 0 := by
  induction items with
  | nil => rfl
  | cons it rest ih =>
    have h1 := h it (List.mem_cons_self _ _)
    have h2 := ih (fun item hm => h item (List.mem_cons_of_mem _ hm))
    simp only [shippableItems, List.map_cons, itemsQty, h1, if_false, zero_add]
    exact h2

theorem itemsQty_shippableItems_of_mem (s : MemoryStore) (items : List Item)
    (hd : (items.map Item.ProductID).Nodup) (item : Item) (hm : item ∈ items) :
    itemsQty item.ProductID (shippableItems s items) =
      min item.Quantity (s.Inventory item.ProductID) := by
  induction items with
  | nil => simp at hm
  | cons it rest ih =>
    simp only [List.map_cons, List.nodup_cons, List.mem_map, not_exists, not_and] at hd
    simp only [List.mem_cons] at hm
    show (if it.ProductID = item.ProductID then min it.Quantity (s.Inventory it.ProductID)
      else 0) + itemsQty item.ProductID (shippableItems s rest) = _
    rcases hm with hm | hm
    · subst hm
      rw [itemsQty_shippableItems_of_not_mem s rest item.ProductID (fun x hx => hd.1 x hx)]
      simp
    · have hne : ¬ it.ProductID = item.ProductID := fun e => hd.1 item hm e.symm
      rw [if_neg hne, ih hd.2 hm]
      simp

/-- Under the invariant, the loop over items whose products are pairwise
distinct, all in the catalog with unit mass within the cap, and of which
nothing has been placed yet, ends without error: of each item the shippable
part is placed and the rest is queued, in order. -/
theorem processItems_places_shippable (cap : Int) (fuel : Nat) (orderID : Int)
    (s0 : MemoryStore) (hs0 : ∀ k, 0 ≤ s0.Inventory k) (items : List Item)
    (placed : Int → Int) (pend : List Item) (st : PackState)
    (h : PackInv cap s0 placed pend st)
    (hfresh : ∀ item ∈ items, placed item.ProductID = 0)
    (hd : (items.map Item.ProductID).Nodup)
    (hcat : ∀ item ∈ items, ∃ product, s0.Catalog item.ProductID = some product ∧
      product.MassG ≤ cap)
    (hq : ∀ item ∈ items, 0 ≤ item.Quantity)
    (hfuel : ∀ item ∈ items, item.Quantity ≤ (fuel : Int)) :
    ∃ st2, processItems cap fuel orderID items st = some (st2, none) ∧
      PackInv cap s0 (fun k => placed k + itemsQty k (shippableItems s0 items))
        (pend ++ expectedRemainder s0 items) st2 := by
  induction items generalizing placed pend st with
  | nil =>
    exact ⟨st, rfl, h.congr (fun k => by simp [shippableItems, itemsQty])
      (by simp [expectedRemainder])⟩
  | cons it rest ih =>
    obtain ⟨product, hc, hm⟩ := hcat it (List.mem_cons_self _ _)
    have hq0 := hq it (List.mem_cons_self _ _)
    have hf0 := hfuel it (List.mem_cons_self _ _)
    have hp0 := hfresh it (List.mem_cons_self _ _)
    simp only [List.map_cons, List.nodup_cons, List.mem_map, not_exists, not_and] at hd
    -- nothing of this product has been shipped, so the stock read is the initial one
    have hcount := h.count it.ProductID
    have hsn := h.shippedNonneg it.ProductID
    have hcn := h.curNonneg it.ProductID
    have havail : st.store.Inventory it.ProductID = s0.Inventory it.ProductID := by
      have := h.stock it.ProductID
      omega
    have hstock0 := hs0 it.ProductID
    obtain ⟨n, hn⟩ : ∃ n : Nat, (n : Int) = min it.Quantity (s0.Inventory it.ProductID) :=
      ⟨(min it.Quantity (s0.Inventory it.ProductID)).toNat,
        Int.toNat_of_nonneg (le_min hq0 hstock0)⟩
    have hle1 : min it.Quantity (s0.Inventory it.ProductID) ≤ it.Quantity := min_le_left _ _
    have hle2 : min it.Quantity (s0.Inventory it.ProductID) ≤ s0.Inventory it.ProductID :=
      min_le_right _ _
    obtain ⟨st1, hloop, hinv1⟩ := packLoop_places_all cap orderID s0 it.ProductID product hc hm
      pend n fuel it.Quantity placed st h (by omega) (by omega)
    rw [processItems_cons, h.catalog, hc]
    simp only [havail, ← hn, hloop]
    have hinv2 : PackInv cap s0 (fun k => if k = it.ProductID then placed it.ProductID + n
        else placed k)
        (pend ++ (if it.Quantity - (n : Int) > 0 then
          [{ ProductID := it.ProductID, Quantity := it.Quantity - (n : Int) }] else []))
        (if it.Quantity - (n : Int) > 0 then
          { st1 with pending := st1.pending ++
            [{ ProductID := it.ProductID, Quantity := it.Quantity - (n : Int) }] }
        else st1) := by
      split
      · exact { hinv1 with pending := by rw [hinv1.pending] }
      · exact hinv1.congr (fun _ => rfl) (by simp)
    obtain ⟨st2, hrest, hinv3⟩ := ih _ _ _ hinv2
      (fun item hmem => by
        have hne : ¬ item.ProductID = it.ProductID := fun e => hd.1 item hmem e
        simp only [hne, if_false]
        exact hfresh item (List.mem_cons_of_mem _ hmem))
      hd.2
      (fun item hmem => hcat item (List.mem_cons_of_mem _ hmem))
      (fun item hmem => hq item (List.mem_cons_of_mem _ hmem))
      (fun item hmem => hfuel item (List.mem_cons_of_mem _ hmem))
    refine ⟨st2, hrest, hinv3.congr (fun k => ?_) ?_⟩
    · show placed k + ((if it.ProductID = k then min it.Quantity (s0.Inventory it.ProductID)
        else 0) + itemsQty k (shippableItems s0 rest)) = _
      by_cases hk : k = it.ProductID
      · subst hk; simp only [if_true]; omega
      · have hk2 : ¬ it.ProductID = k := fun e => hk e.symm
        simp only [hk, hk2, if_false]; omega
    · simp only [expectedRemainder, ← hn]
      split <;> simp

/-- C5. Starting from an empty backlog, on an order whose items name pairwise
distinct catalog products of unit mass between 1 and the cap, with
non-negative quantities and non-negative stock, `ProcessOrder` returns (given
fuel for the largest quantity), the executed shipments hold exactly
min(quantity, stock) units of each item and none of any other product, and
the backlog afterwards is the single order with the same id listing, in input
order, the product and quantity - min(quantity, stock) of the items where
that difference is positive, or is empty when there is no such item. -/
theorem ProcessOrder_ships_min_of_quantity_and_stock (cap : Int) (fuel : Nat) (s : MemoryStore)
    (order : Order)
    (hempty : s.PendingOrders = [])
    (hd : (order.Requested.map Item.ProductID).Nodup)
    (hcat : ∀ item ∈ order.Requested, ∃ product, s.Catalog item.ProductID = some product ∧
      1 ≤ product.MassG ∧ product.MassG ≤ cap)
    (hq : ∀ item ∈ order.Requested, 0 ≤ item.Quantity)
    (hs : ∀ k, 0 ≤ s.Inventory k)
    (hfuel : ∀ item ∈ order.Requested, item.Quantity ≤ (fuel : Int)) :
    ∃ r, ProcessOrder cap fuel s order = some r ∧
      (order.Requested ≠ [] → r.err = none) ∧
      (∀ item ∈ order.Requested, shippedQty item.ProductID r.shipped =
        min item.Quantity (s.Inventory item.ProductID)) ∧
      (∀ k, (∀ item ∈ order.Requested, item.ProductID ≠ k) → shippedQty k r.shipped = 0) ∧
      r.store.PendingOrders =
        (match expectedRemainder s order.Requested with
          | [] => []
          | x :: xs => [⟨order.OrderID, x :: xs⟩]) := by
  cases hreq : order.Requested with
  | nil =>
    refine ⟨⟨s, some (.EmptyOrder order.OrderID), []⟩, ?_, ?_, ?_, ?_, ?_⟩
    · simp [ProcessOrder, hreq]
    · simp
    · simp
    · intro k _; rfl
    · simp [expectedRemainder, hempty]
  | cons a l =>
    rw [hreq] at hd hcat hq hfuel
    have h0 : PackInv cap s (fun _ => 0) [] ⟨s, [], [], 0, []⟩ :=
      { catalog := rfl, pendingOrders := rfl,
        stock := fun k => by simp [shippedQty],
        count := fun k => by simp [shippedQty, itemsQty],
        bound := fun _ => Or.inl rfl,
        shippedNonneg := fun k => by simp [shippedQty],
        units := fun item hm => by simp at hm,
        valid := rfl, pending := rfl }
    obtain ⟨st, hp, hinv⟩ := processItems_places_shippable cap fuel order.OrderID s hs (a :: l)
      (fun _ => 0) [] _ h0 (fun _ _ => rfl) hd
      (fun item hm => by
        obtain ⟨product, h1, _, h3⟩ := hcat item hm
        exact ⟨product, h1, h3⟩)
      hq hfuel
    obtain ⟨hfl, hcur, _⟩ := hinv.flush order.OrderID
    have hship : ∀ k, shippedQty k (flushShipment cap order.OrderID st).shipped =
        itemsQty k (shippableItems s (a :: l)) := by
      intro k
      have := hfl.count k
      rw [hcur] at this
      have hnil : itemsQty k [] = 0 := rfl
      rw [hnil] at this
      simp only [zero_add] at this
      omega
    have hpend : (flushShipment cap order.OrderID st).pending = expectedRemainder s (a :: l) := by
      rw [hfl.pending]; simp
    have hpo : (flushShipment cap order.OrderID st).store.PendingOrders = [] := by
      rw [hfl.pendingOrders]; exact hempty
    have hshape : ∃ r, ProcessOrder cap fuel s order = some r ∧ r.err = none ∧
        r.shipped = (flushShipment cap order.OrderID st).shipped ∧
        r.store.PendingOrders =
          (match expectedRemainder s (a :: l) with
            | [] => []
            | x :: xs => [⟨order.OrderID, x :: xs⟩]) := by
      unfold ProcessOrder
      simp only [hreq, hp]
      rw [hpend]
      cases hrem : expectedRemainder s (a :: l) with
      | nil => exact ⟨_, rfl, rfl, rfl, rfl⟩
      | cons x xs =>
        refine ⟨_, rfl, rfl, rfl, ?_⟩
        simp [MemoryStore.AddPendingOrder, hpo]
    obtain ⟨r, hr, herr, hsh, hbacklog⟩ := hshape
    refine ⟨r, hr, fun _ => herr, ?_, ?_, hbacklog⟩
    · intro item hm
      rw [hsh, hship]
      exact itemsQty_shippableItems_of_mem s (a :: l) hd item hm
    · intro k hk
      rw [hsh, hship]
      exact itemsQty_shippableItems_of_not_mem s (a :: l) k hk

/-- Witness of C5: the scenario of `TestProcessOrder_FullAndPartialShipment`,
with a cap of 1800 grams. Two units of product 0 and one of product 10 are in
stock; order 123 asks for two and three. -/
theorem ProcessOrder_ships_min_of_quantity_and_stock_witness :
    ∃ r, ProcessOrder 1800 3 stockedStore order123 = some r ∧
      (order123.Requested ≠ [] → r.err = none) ∧
      (∀ item ∈ order123.Requested, shippedQty item.ProductID r.shipped =
        min item.Quantity (stockedStore.Inventory item.ProductID)) ∧
      (∀ k, (∀ item ∈ order123.Requested, item.ProductID ≠ k) → shippedQty k r.shipped = 0) ∧
      r.store.PendingOrders =
        (match expectedRemainder stockedStore order123.Requested with
          | [] => []
          | x :: xs => [⟨order123.OrderID, x :: xs⟩]) :=
  ProcessOrder_ships_min_of_quantity_and_stock 1800 3 stockedStore order123 (by decide)
    (by decide)
    (by
      intro item hm
      simp only [order123, List.mem_cons, List.mem_singleton, List.not_mem_nil, or_false] at hm
      rcases hm with rfl | rfl
      · exact ⟨⟨0, "RBC A+ Adult", 700⟩, rfl, by decide, by decide⟩
      · exact ⟨⟨10, "FFP A+", 300⟩, rfl, by decide, by decide⟩)
    (by decide)
    (by
      intro k
      simp only [stockedStore, catalogStore, InitCatalog, MemoryStore.InitCatalog,
        MemoryStore.AddStock, NewMemoryStore]
      split_ifs <;> simp)
    (by decide)

/-! ## Claims on ProcessRestock -/

theorem restockItems_Catalog (restock : List Item) (s : MemoryStore) :
    (restockItems s restock).Catalog = s.Catalog := by
  induction restock generalizing s with
  | nil => rfl
  | cons it rest ih =>
    simp only [restockItems, MemoryStore.GetProduct]
    split
    · exact ih s
    · rw [ih]; rfl

theorem restockItems_PendingOrders (restock : List Item) (s : MemoryStore) :
    (restockItems s restock).PendingOrders = s.PendingOrders := by
  induction restock generalizing s with
  | nil => rfl
  | cons it rest ih =>
    simp only [restockItems, MemoryStore.GetProduct]
    split
    · exact ih s
    · rw [ih]; rfl

/-- The restock loop adds, for every catalog product, the quantities restocked
for it, and leaves the entries of all other product ids as they were. -/
theorem restockItems_Inventory (restock : List Item) (s : MemoryStore) (k : Int) :
    (restockItems s restock).Inventory k =
      if (s.Catalog k).isSome = true then s.Inventory k + itemsQty k restock
      else s.Inventory k := by
  induction restock generalizing s with
  | nil => simp [restockItems, itemsQty]
  | cons it rest ih =>
    simp only [restockItems, MemoryStore.GetProduct]
    cases hc : s.Catalog it.ProductID with
    | none =>
      simp only
      rw [ih s]
      by_cases hk : it.ProductID = k
      · subst hk; simp [hc]
      · simp [itemsQty, hk]
    | some product =>
      simp only
      rw [ih]
      simp only [MemoryStore.AddStock, itemsQty]
      by_cases hk : it.ProductID = k
      · subst hk
        simp only [hc, Option.isSome_some, if_true]
        omega
      · have hk2 : ¬ k = it.ProductID := fun e => hk e.symm
        simp only [hk, hk2, if_false]
        split <;> omega

/-- With an empty backlog `ProcessRestock` returns for every fuel: nothing is
reprocessed, no shipment is executed and the backlog stays empty. -/
theorem ProcessRestock_of_empty_backlog (cap : Int) (fuel : Nat) (s : MemoryStore)
    (restock : List Item) (hempty : s.PendingOrders = []) :
    ∃ r, ProcessRestock cap fuel s restock = some r ∧ r.shipped = [] ∧
      r.store.PendingOrders = [] ∧
      (restock ≠ [] → r.err = none ∧ r.store.Inventory = (restockItems s restock).Inventory ∧
        r.store.Catalog = (restockItems s restock).Catalog) := by
  cases restock with
  | nil => exact ⟨⟨s, some .EmptyRestock, []⟩, rfl, rfl, hempty, fun h => absurd rfl h⟩
  | cons a l =>
    have hp : (restockItems s (a :: l)).GetPendingOrders = [] := by
      simp only [MemoryStore.GetPendingOrders, restockItems_PendingOrders, hempty]
    refine ⟨⟨(restockItems s (a :: l)).ClearPendingOrders, none, []⟩, ?_, rfl, rfl,
      fun _ => ⟨rfl, rfl, rfl⟩⟩
    simp only [ProcessRestock, hp, reprocessPending]

/-- Counterexample to C11: with two units of product 10 pending and none in
stock, restocking three units of the catalog product 10 ends with a stock of
1, not 0 + 3, because the pending order is reprocessed and ships two units. -/
theorem ProcessRestock_stock_after_reprocessing :
    pendingStore.Inventory 10 = 0 ∧ (pendingStore.Catalog 10).isSome = true ∧
    (ProcessRestock 1800 2 pendingStore [⟨10, 3⟩]).map
      (fun r => (r.err, r.store.Inventory 10, shippedQty 10 r.shipped)) = some (none, 1, 2) := by
  decide

/-- C11 (amended). For every store whose pending backlog is empty and every
non-empty restock list, `ProcessRestock` returns success and afterwards the
stock of each catalog product is its stock before plus the quantities
restocked for it; the stock of every product id that is not in the catalog
and the catalog itself are unchanged. -/
theorem ProcessRestock_adds_restocked_quantities (cap : Int) (fuel : Nat) (s : MemoryStore)
    (restock : List Item) (hne : restock ≠ []) (hempty : s.PendingOrders = []) :
    ∃ r, ProcessRestock cap fuel s restock = some r ∧ r.err = none ∧
      (∀ k product, s.Catalog k = some product →
        r.store.Inventory k = s.Inventory k + itemsQty k restock) ∧
      (∀ k, s.Catalog k = none → r.store.Inventory k = s.Inventory k) ∧
      r.store.Catalog = s.Catalog := by
  obtain ⟨r, hr, _, _, hrest⟩ := ProcessRestock_of_empty_backlog cap fuel s restock hempty
  obtain ⟨herr, hinv, hcat⟩ := hrest hne
  refine ⟨r, hr, herr, ?_, ?_, ?_⟩
  · intro k product hk
    rw [hinv, restockItems_Inventory]
    simp [hk]
  · intro k hk
    rw [hinv, restockItems_Inventory]
    simp [hk]
  · rw [hcat, restockItems_Catalog]

/-- Witness of C11 (amended): on the stocked store, whose backlog is empty,
restocking product 10 by three units and the unknown product 999 by five. -/
theorem ProcessRestock_adds_restocked_quantities_witness :
    ∃ r, ProcessRestock 1800 0 stockedStore [⟨10, 3⟩, ⟨999, 5⟩] = some r ∧ r.err = none ∧
      (∀ k product, stockedStore.Catalog k = some product →
        r.store.Inventory k = stockedStore.Inventory k + itemsQty k [⟨10, 3⟩, ⟨999, 5⟩]) ∧
      (∀ k, stockedStore.Catalog k = none → r.store.Inventory k = stockedStore.Inventory k) ∧
      r.store.Catalog = stockedStore.Catalog :=
  ProcessRestock_adds_restocked_quantities 1800 0 stockedStore [⟨10, 3⟩, ⟨999, 5⟩]
    (by decide) (by decide)

/-- C12 (at the failing input). Orders 7 (one unit of product 0) and 8 (one
unit of product 10) are pending and nothing is in stock. After restocking one
unit of product 10, reprocessing order 7 leaves its unit of product 0
unshipped, yet the backlog after `ProcessRestock` is empty: reprocessing
order 8, which ships in full, clears it. -/
theorem ProcessRestock_drops_earlier_remainder :
    twoPendingStore.PendingOrders = [⟨7, [⟨0, 1⟩]⟩, ⟨8, [⟨10, 1⟩]⟩] ∧
    orderRemainder 1800 1 (restockItems twoPendingStore [⟨10, 1⟩]).ClearPendingOrders
      ⟨7, [⟨0, 1⟩]⟩ = some [⟨0, 1⟩] ∧
    (ProcessRestock 1800 1 twoPendingStore [⟨10, 1⟩]).map
      (fun r => (r.err, r.shipped, r.store.PendingOrders)) =
      some (none, [⟨8, [⟨10, 1⟩]⟩], []) := by
  decide

theorem ProcessRestock_err (cap : Int) (fuel : Nat) (s : MemoryStore) (restock : List Item)
    (r : OrderResult) (h : ProcessRestock cap fuel s restock = some r) :
    (restock = [] ∧ r.err = some .EmptyRestock ∧ r.store = s ∧ r.shipped = []) ∨
    (restock ≠ [] ∧ r.err = none) := by
  unfold ProcessRestock at h
  cases restock with
  | nil =>
    left
    simp only [Option.some.injEq] at h
    subst h
    exact ⟨rfl, rfl, rfl, rfl⟩
  | cons a l =>
    right
    simp only at h
    cases hp : reprocessPending cap fuel (restockItems s (a :: l)).GetPendingOrders
        (restockItems s (a :: l)).ClearPendingOrders [] with
    | none => simp [hp] at h
    | some res =>
      obtain ⟨s3, shipped⟩ := res
      simp only [hp, Option.some.injEq] at h
      subst h
      exact ⟨by simp, rfl⟩

/-- C13. `ProcessRestock` on the empty list returns, for every fuel, the
empty-restock error with the store (stock ledger, catalog and pending backlog)
as it was and no shipment executed, so no pending order is reprocessed; and
whenever `ProcessRestock` returns, it returns an error exactly when the list is
empty, so no error of the reprocessing reaches the caller. -/
theorem ProcessRestock_error_iff_empty (cap : Int) (fuel : Nat) (s : MemoryStore)
    (restock : List Item) :
    (restock = [] → ∃ r, ProcessRestock cap fuel s restock = some r ∧
      r.err = some .EmptyRestock ∧ r.store = s ∧ r.shipped = []) ∧
    (∀ r, ProcessRestock cap fuel s restock = some r →
      (r.err ≠ none ↔ restock = []) ∧
      (r.err ≠ none → r.err = some .EmptyRestock ∧ r.store = s ∧ r.shipped = [])) := by
  constructor
  · intro h
    subst h
    exact ⟨⟨s, some .EmptyRestock, []⟩, rfl, rfl, rfl, rfl⟩
  · intro r h
    rcases ProcessRestock_err cap fuel s restock r h with h1 | h1
    · obtain ⟨h2, h3, h4, h5⟩ := h1
      exact ⟨by simp [h2, h3], fun _ => ⟨h3, h4, h5⟩⟩
    · obtain ⟨h2, h3⟩ := h1
      exact ⟨by simp [h2, h3], fun hne => absurd h3 hne⟩

/-- Witness of C13: the pending order for the unknown product 999 makes
`ProcessOrder` return the not-found error, and still a restock of one unit of
product 0 returns success. -/
theorem ProcessRestock_error_iff_empty_witness :
    (ProcessOrder 1800 1 (restockItems unknownPendingStore [⟨0, 1⟩]).ClearPendingOrders
      ⟨404, [⟨999, 1⟩]⟩).map (fun r => r.err) = some (some (.ProductNotFound 999)) ∧
    ∃ r, ProcessRestock 1800 1 unknownPendingStore [⟨0, 1⟩] = some r ∧
      (r.err ≠ none ↔ ([⟨0, 1⟩] : List Item) = []) :=
  ⟨by decide, (ProcessRestock 1800 1 unknownPendingStore [⟨0, 1⟩]).get (by decide),
    (Option.some_get _).symm,
    ((ProcessRestock_error_iff_empty 1800 1 unknownPendingStore [⟨0, 1⟩]).2 _
      (Option.some_get _).symm).1⟩

/-- C16. If the pending backlog is empty after `ProcessRestock` of a restock
list, a second `ProcessRestock` of the same list returns (for every fuel),
executes no shipment and leaves the backlog empty. -/
theorem ProcessRestock_twice_keeps_backlog_empty (cap : Int) (fuel fuel2 : Nat)
    (s : MemoryStore) (restock : List Item) (r1 : OrderResult)
    (_h1 : ProcessRestock cap fuel s restock = some r1)
    (hempty : r1.store.PendingOrders = []) :
    ∃ r2, ProcessRestock cap fuel2 r1.store restock = some r2 ∧ r2.shipped = [] ∧
      r2.store.PendingOrders = [] := by
  obtain ⟨r2, hr2, hs, hp, _⟩ := ProcessRestock_of_empty_backlog cap fuel2 r1.store restock hempty
  exact ⟨r2, hr2, hs, hp⟩

/-- Witness of C16: with two units of product 10 pending, a restock of three
units ships the pending order and empties the backlog; the same restock again
ships nothing and the backlog stays empty. -/
theorem ProcessRestock_twice_keeps_backlog_empty_witness :
    ∃ r2, ProcessRestock 1800 2
        ((ProcessRestock 1800 2 pendingStore [⟨10, 3⟩]).get (by decide)).store [⟨10, 3⟩] =
        some r2 ∧ r2.shipped = [] ∧ r2.store.PendingOrders = [] :=
  ProcessRestock_twice_keeps_backlog_empty 1800 2 2 pendingStore [⟨10, 3⟩] _
    (Option.some_get _).symm (by decide)

/-! ## Claims on InitCatalog -/

theorem InitCatalog_not_listed (l : List Product) (s : MemoryStore) (k : Int)
    (h : ∀ p ∈ l, p.ProductID ≠ k) :
    (s.InitCatalog l).Catalog k = s.Catalog k ∧ (s.InitCatalog l).Inventory k = s.Inventory k := by
  induction l generalizing s with
  | nil => exact ⟨rfl, rfl⟩
  | cons p ps ih =>
    have hp : ¬ k = p.ProductID := fun e => h p (List.mem_cons_self _ _) e.symm
    obtain ⟨h1, h2⟩ := ih
      { s with
        Catalog := fun k => if k = p.ProductID then some p else s.Catalog k
        Inventory := fun k => if k = p.ProductID then 0 else s.Inventory k }
      (fun q hq => h q (List.mem_cons_of_mem _ hq))
    simp only [MemoryStore.InitCatalog]
    rw [h1, h2]
    simp [hp]

theorem InitCatalog_append (l1 l2 : List Product) (s : MemoryStore) :
    s.InitCatalog (l1 ++ l2) = (s.InitCatalog l1).InitCatalog l2 := by
  induction l1 generalizing s with
  | nil => rfl
  | cons p ps ih => exact ih _

theorem InitCatalog_listed (l : List Product) (s : MemoryStore) (k : Int)
    (hk : ∃ p ∈ l, p.ProductID = k) :
    (∃ q ∈ l, q.ProductID = k ∧ (s.InitCatalog l).Catalog k = some q) ∧
    (s.InitCatalog l).Inventory k = 0 := by
  induction l generalizing s with
  | nil => simp at hk
  | cons a as ih =>
    by_cases hlater : ∃ q ∈ as, q.ProductID = k
    · obtain ⟨⟨q2, hq2, hid2, hcat⟩, hinv⟩ := ih
        { s with
          Catalog := fun k => if k = a.ProductID then some a else s.Catalog k
          Inventory := fun k => if k = a.ProductID then 0 else s.Inventory k }
        hlater
      exact ⟨⟨q2, List.mem_cons_of_mem _ hq2, hid2, hcat⟩, hinv⟩
    · have hnot : ∀ q ∈ as, q.ProductID ≠ k := fun q hq e => hlater ⟨q, hq, e⟩
      have hka : a.ProductID = k := by
        obtain ⟨p, hp, hpk⟩ := hk
        rcases List.mem_cons.mp hp with h | h
        · rw [← h]; exact hpk
        · exact absurd hpk (hnot p h)
      obtain ⟨h1, h2⟩ := InitCatalog_not_listed as
        { s with
          Catalog := fun k => if k = a.ProductID then some a else s.Catalog k
          Inventory := fun k => if k = a.ProductID then 0 else s.Inventory k }
        k hnot
      simp only [MemoryStore.InitCatalog]
      rw [h1, h2]
      exact ⟨⟨a, List.mem_cons_self _ _, hka, by simp [hka]⟩, by simp [hka]⟩

/-- C15. For every non-empty product list `InitCatalog` returns success and
afterwards every listed product id is found in the catalog, as a listed
product of that id, with stock exactly 0; the entry found is the last one of
that id in the list. For the empty list `InitCatalog` returns the
empty-catalog error and the store as it was. -/
theorem InitCatalog_seeds_zero_stock (s : MemoryStore) (productInfo : List Product) :
    (productInfo ≠ [] →
      (InitCatalog s productInfo).2 = none ∧
      (∀ p ∈ productInfo,
        (∃ q ∈ productInfo, q.ProductID = p.ProductID ∧
          (InitCatalog s productInfo).1.Catalog p.ProductID = some q) ∧
        (InitCatalog s productInfo).1.Inventory p.ProductID = 0) ∧
      (∀ l1 p l2, productInfo = l1 ++ p :: l2 → (∀ q ∈ l2, q.ProductID ≠ p.ProductID) →
        (InitCatalog s productInfo).1.Catalog p.ProductID = some p)) ∧
    (productInfo = [] → InitCatalog s productInfo = (s, some .EmptyCatalog)) := by
  constructor
  · intro hne
    cases productInfo with
    | nil => exact absurd rfl hne
    | cons a as =>
      refine ⟨rfl, fun p hp => InitCatalog_listed (a :: as) s p.ProductID ⟨p, hp, rfl⟩, ?_⟩
      intro l1 p l2 hsplit hlast
      show (s.InitCatalog (a :: as)).Catalog p.ProductID = some p
      rw [hsplit, InitCatalog_append]
      simp only [MemoryStore.InitCatalog]
      rw [(InitCatalog_not_listed l2 _ p.ProductID hlast).1]
      simp
  · intro h
    subst h
    rfl

/-- Witness of C15: on a fresh store, the list with product 1 entered twice,
first as "Product A" of 500 grams and then as "Product B" of 300 grams. -/
theorem InitCatalog_seeds_zero_stock_witness :
    (InitCatalog NewMemoryStore [⟨1, "Product A", 500⟩, ⟨1, "Product B", 300⟩]).2 = none ∧
    (InitCatalog NewMemoryStore [⟨1, "Product A", 500⟩, ⟨1, "Product B", 300⟩]).1.Catalog 1 =
      some ⟨1, "Product B", 300⟩ :=
  ⟨((InitCatalog_seeds_zero_stock NewMemoryStore
      [⟨1, "Product A", 500⟩, ⟨1, "Product B", 300⟩]).1 (by decide)).1,
    ((InitCatalog_seeds_zero_stock NewMemoryStore
      [⟨1, "Product A", 500⟩, ⟨1, "Product B", 300⟩]).1 (by decide)).2.2
      [⟨1, "Product A", 500⟩] ⟨1, "Product B", 300⟩ [] rfl (fun _ h => absurd h (List.not_mem_nil _))⟩

/-! ## ProcessOrder: every requested unit is shipped or pending -/

theorem flushShipment_currentShipment (cap orderID : Int) (st : PackState) :
    (flushShipment cap orderID st).currentShipment = [] := by
  rcases flushShipment_cases cap orderID st with h | h | h
  · rw [h.2]; exact h.1
  · rw [h.2.2]
  · rw [h.2.2]

theorem flushShipment_accounted (cap orderID : Int) (st : PackState) (k : Int) :
    (flushShipment cap orderID st).accounted k = st.accounted k := by
  rcases flushShipment_cases cap orderID st with h | h | h
  · rw [h.2]
  · rw [h.2.2]
    simp only [PackState.accounted, shippedQty_append, shippedQty, itemsQty]
    omega
  · rw [h.2.2]
    simp only [PackState.accounted, itemsQty_append, itemsQty]
    omega

/-- The packing loop ends with `remaining` lowered by the number of units it
had to place, and accounts for exactly that many more units of its product. -/
theorem packLoop_accounted (cap orderID productID : Int) (product : Product) (fuel : Nat)
    (toShip remaining : Int) (st : PackState) (r : Int × PackState)
    (h : packLoop cap orderID productID product fuel toShip remaining st = some r) :
    r.1 = remaining - max 0 toShip ∧
    ∀ k, r.2.accounted k = st.accounted k + (if k = productID then max 0 toShip else 0) := by
  induction fuel generalizing toShip remaining st with
  | zero =>
    by_cases ht : toShip > 0
    · rw [packLoop_zero _ _ _ _ _ _ _ ht] at h; cases h
    · rw [packLoop_done _ _ _ _ _ _ _ _ ht] at h
      cases h
      have hmax : max 0 toShip = 0 := max_eq_left (by omega)
      rw [hmax]
      exact ⟨by simp, fun k => by simp⟩
  | succ n ih =>
    by_cases ht : toShip > 0
    · obtain ⟨st1, hst1⟩ : ∃ st1, st1 = if st.currentWeight + product.MassG > cap then
          flushShipment cap orderID st else st := ⟨_, rfl⟩
      rw [packLoop_succ _ _ _ _ _ _ _ _ st1 ht hst1] at h
      have hacc : ∀ k, st1.accounted k = st.accounted k := by
        intro k
        rw [hst1]; split
        · exact flushShipment_accounted _ _ _ _
        · rfl
      have hmax : max 0 toShip = toShip := max_eq_right (by omega)
      rw [hmax]
      split at h
      · obtain ⟨h1, h2⟩ := ih _ _ _ h
        have hmax1 : max 0 (toShip - 1) = toShip - 1 := max_eq_right (by omega)
        rw [hmax1] at h1 h2
        refine ⟨by omega, fun k => ?_⟩
        rw [h2 k, ← hacc k]
        simp only [PackState.accounted, itemsQty_append, itemsQty]
        by_cases hk : k = productID
        · subst hk; simp; omega
        · have hk2 : ¬ productID = k := fun e => hk e.symm
          simp [hk, hk2]
      · obtain ⟨h1, h2⟩ := ih _ _ _ h
        rw [hmax] at h1 h2
        exact ⟨h1, fun k => by rw [h2 k, hacc k]⟩
    · rw [packLoop_done _ _ _ _ _ _ _ _ ht] at h
      cases h
      have hmax : max 0 toShip = 0 := max_eq_left (by omega)
      rw [hmax]
      exact ⟨by simp, fun k => by simp⟩

theorem processItems_accounted (cap : Int) (fuel : Nat) (orderID : Int) (items : List Item)
    (st st2 : PackState) (h : processItems cap fuel orderID items st = some (st2, none))
    (hq : ∀ item ∈ items, 0 ≤ item.Quantity) :
    ∀ k, st2.accounted k = st.accounted k + itemsQty k items := by
  induction items generalizing st with
  | nil =>
    simp only [processItems, Option.some.injEq, Prod.mk.injEq, and_true] at h
    subst h
    intro k; simp [itemsQty]
  | cons it rest ih =>
    rw [processItems_cons] at h
    cases hc : st.store.Catalog it.ProductID with
    | none => simp [hc] at h
    | some product =>
      simp only [hc] at h
      cases hloop : packLoop cap orderID it.ProductID product fuel
          (min it.Quantity (st.store.Inventory it.ProductID)) it.Quantity st with
      | none => simp [hloop] at h
      | some res =>
        obtain ⟨remaining, st1⟩ := res
        simp only [hloop] at h
        obtain ⟨hrem, hacc⟩ := packLoop_accounted _ _ _ _ _ _ _ _ _ hloop
        simp only at hrem hacc
        have hq0 := hq it (List.mem_cons_self _ _)
        have hmin : min it.Quantity (st.store.Inventory it.ProductID) ≤ it.Quantity :=
          min_le_left _ _
        have hmaxle : max 0 (min it.Quantity (st.store.Inventory it.ProductID)) ≤ it.Quantity :=
          max_le hq0 hmin
        have hrest := ih _ h (fun item hm => hq item (List.mem_cons_of_mem _ hm))
        intro k
        rw [hrest k]
        have hstep : (if remaining > 0 then
            ({ st1 with pending := st1.pending ++
              [{ ProductID := it.ProductID, Quantity := remaining }] } : PackState)
            else st1).accounted k =
            st1.accounted k + (if k = it.ProductID then remaining else 0) := by
          split
          · simp only [PackState.accounted, itemsQty_append, itemsQty]
            by_cases hk : k = it.ProductID
            · subst hk; simp; omega
            · have hk2 : ¬ it.ProductID = k := fun e => hk e.symm
              simp [hk, hk2]
          · split <;> omega
        rw [hstep, hacc k]
        simp only [itemsQty]
        by_cases hk : k = it.ProductID
        · subst hk; simp; omega
        · have hk2 : ¬ it.ProductID = k := fun e => hk e.symm
          simp [hk, hk2]

/-- C18. When `ProcessOrder` returns success on an order of non-negative
quantities, then for every product the total quantity requested equals the
units of it in the executed shipments plus its total quantity in the
unshipped remainder, which is what `ProcessOrder` writes as the pending order
(no order is written when the remainder is empty). -/
theorem ProcessOrder_accounts_for_every_unit (cap : Int) (fuel : Nat) (s : MemoryStore)
    (order : Order) (r : OrderResult) (h : ProcessOrder cap fuel s order = some r)
    (hok : r.err = none) (hq : ∀ item ∈ order.Requested, 0 ≤ item.Quantity) :
    ∃ rem, orderRemainder cap fuel s order = some rem ∧
      (∀ k, itemsQty k order.Requested = shippedQty k r.shipped + itemsQty k rem) ∧
      (rem ≠ [] → r.store.PendingOrders = s.PendingOrders ++ [⟨order.OrderID, rem⟩]) ∧
      (rem = [] → r.store.PendingOrders = []) := by
  rcases ProcessOrder_cases cap fuel s order r h with h1 | h1 | h1
  · rw [h1.2.2.1] at hok; cases hok
  · obtain ⟨_, st, e, _, _, herr, _⟩ := h1
    rw [herr] at hok; cases hok
  · obtain ⟨_, st, hp, _, hsh, _, _, hpo⟩ := h1
    have hkeep : (flushShipment cap order.OrderID st).store.PendingOrders = s.PendingOrders :=
      (stable_PendingOrders cap order.OrderID s.PendingOrders).flush _
        (processItems_stable (stable_PendingOrders cap order.OrderID s.PendingOrders)
          fuel _ _ _ hp rfl)
    refine ⟨(flushShipment cap order.OrderID st).pending, by simp [orderRemainder, hp], ?_, ?_⟩
    · intro k
      have h1 := processItems_accounted cap fuel order.OrderID _ _ _ hp hq k
      have h2 := flushShipment_accounted cap order.OrderID st k
      rw [h1] at h2
      simp only [PackState.accounted, flushShipment_currentShipment, itemsQty, shippedQty] at h2
      rw [hsh]
      omega
    · cases hpend : (flushShipment cap order.OrderID st).pending with
      | nil =>
        rw [hpend] at hpo
        simp [hpo]
      | cons x xs =>
        rw [hpend, hkeep] at hpo
        exact ⟨fun _ => hpo, by simp⟩

/-- Witness of C18: order 123 on the stocked store asks for two units of
product 0 and three of product 10; two and one are shipped, two of product 10
are pending. -/
theorem ProcessOrder_accounts_for_every_unit_witness :
    ∃ rem, orderRemainder 1800 3 stockedStore order123 = some rem ∧
      (∀ k, itemsQty k order123.Requested =
        shippedQty k ((ProcessOrder 1800 3 stockedStore order123).get (by decide)).shipped +
          itemsQty k rem) ∧
      (rem ≠ [] → ((ProcessOrder 1800 3 stockedStore order123).get (by decide)).store.PendingOrders
        = stockedStore.PendingOrders ++ [⟨order123.OrderID, rem⟩]) ∧
      (rem = [] →
        ((ProcessOrder 1800 3 stockedStore order123).get (by decide)).store.PendingOrders = []) :=
  ProcessOrder_accounts_for_every_unit 1800 3 stockedStore order123 _ (Option.some_get _).symm
    (by decide) (by decide)

/-! ## ProcessOrder: termination -/

theorem stable_emptyWeight (cap orderID : Int) :
    Stable cap orderID (fun st => st.currentShipment = [] → st.currentWeight = 0) where
  flush := fun st h => by
    rcases flushShipment_cases cap orderID st with h1 | h1 | h1
    · rw [h1.2]; exact h
    · rw [h1.2.2]; intro _; rfl
    · rw [h1.2.2]; intro _; rfl
  place := fun _ _ _ _ hnil => by simp at hnil
  queue := fun _ _ h => h

theorem flushShipment_currentWeight_zero (cap orderID : Int) (st : PackState)
    (hW : st.currentShipment = [] → st.currentWeight = 0) :
    (flushShipment cap orderID st).currentWeight = 0 :=
  (stable_emptyWeight cap orderID).flush st hW (flushShipment_currentShipment cap orderID st)

/-- With a unit mass within the cap, every iteration of the packing loop
places a unit, so the loop returns exactly when the fuel covers the number of
units to place. -/
theorem packLoop_isSome_iff (cap orderID productID : Int) (product : Product)
    (hm : product.MassG ≤ cap) (fuel : Nat) (toShip remaining : Int) (st : PackState)
    (hW : st.currentShipment = [] → st.currentWeight = 0) :
    (packLoop cap orderID productID product fuel toShip remaining st).isSome = true ↔
      (max 0 toShip).toNat ≤ fuel := by
  induction fuel generalizing toShip remaining st with
  | zero =>
    by_cases ht : toShip > 0
    · rw [packLoop_zero _ _ _ _ _ _ _ ht]
      have hmax : max 0 toShip = toShip := max_eq_right (by omega)
      rw [hmax]
      simp only [Option.isSome_none, Bool.false_eq_true, false_iff]
      omega
    · rw [packLoop_done _ _ _ _ _ _ _ _ ht]
      have hmax : max 0 toShip = 0 := max_eq_left (by omega)
      rw [hmax]
      simp
  | succ n ih =>
    by_cases ht : toShip > 0
    · obtain ⟨st1, hst1⟩ : ∃ st1, st1 = if st.currentWeight + product.MassG > cap then
          flushShipment cap orderID st else st := ⟨_, rfl⟩
      rw [packLoop_succ _ _ _ _ _ _ _ _ st1 ht hst1]
      have hfit : st1.currentWeight + product.MassG ≤ cap := by
        rw [hst1]
        split
        · rw [flushShipment_currentWeight_zero cap orderID st hW]; omega
        · omega
      rw [if_pos hfit, ih _ _ _ (fun hnil => by simp at hnil)]
      have hmax : max 0 toShip = toShip := max_eq_right (by omega)
      have hmax1 : max 0 (toShip - 1) = toShip - 1 := max_eq_right (by omega)
      rw [hmax, hmax1]
      omega
    · rw [packLoop_done _ _ _ _ _ _ _ _ ht]
      have hmax : max 0 toShip = 0 := max_eq_left (by omega)
      rw [hmax]
      simp

theorem processItems_terminates (cap : Int) (fuel : Nat) (orderID : Int) (s : MemoryStore)
    (hmass : ∀ k product, s.Catalog k = some product → product.MassG ≤ cap)
    (items : List Item) (st : PackState)
    (hfuel : ∀ item ∈ items, item.Quantity ≤ (fuel : Int))
    (hcat : st.store.Catalog = s.Catalog)
    (hW : st.currentShipment = [] → st.currentWeight = 0) :
    ∃ r, processItems cap fuel orderID items st = some r := by
  induction items generalizing st with
  | nil => exact ⟨_, rfl⟩
  | cons it rest ih =>
    rw [processItems_cons]
    cases hc : st.store.Catalog it.ProductID with
    | none => exact ⟨_, rfl⟩
    | some product =>
      have hm : product.MassG ≤ cap := hmass it.ProductID product (by rw [← hcat]; exact hc)
      have hf := hfuel it (List.mem_cons_self _ _)
      have hmin : min it.Quantity (st.store.Inventory it.ProductID) ≤ it.Quantity :=
        min_le_left _ _
      have hsome := (packLoop_isSome_iff cap orderID it.ProductID product hm fuel
        (min it.Quantity (st.store.Inventory it.ProductID)) it.Quantity st hW).mpr (by
          rcases le_total 0 (min it.Quantity (st.store.Inventory it.ProductID)) with h0 | h0
          · rw [max_eq_right h0]; omega
          · rw [max_eq_left h0]; simp)
      cases hloop : packLoop cap orderID it.ProductID product fuel
          (min it.Quantity (st.store.Inventory it.ProductID)) it.Quantity st with
      | none => rw [hloop] at hsome; cases hsome
      | some res =>
        obtain ⟨remaining, st1⟩ := res
        simp only [hloop]
        have hcat1 : st1.store.Catalog = s.Catalog :=
          packLoop_stable (stable_Catalog cap orderID s.Catalog) _ _ _ _ _ _ _ hloop hcat
        have hW1 : st1.currentShipment = [] → st1.currentWeight = 0 :=
          packLoop_stable (stable_emptyWeight cap orderID) _ _ _ _ _ _ _ hloop hW
        apply ih _ (fun item hm => hfuel item (List.mem_cons_of_mem _ hm))
        · split <;> exact hcat1
        · split <;> exact hW1

/-- C17. When every catalog product has unit mass at most the cap,
`ProcessOrder` returns on every order (given fuel for the largest quantity);
and for each item, reached after the items before it were processed, the
packing loop returns exactly when the fuel is at least
max(0, min(quantity, stock)): one unit is placed in every iteration, so the
loop runs that many times. -/
theorem ProcessOrder_terminates_within_cap (cap : Int) (s : MemoryStore)
    (hmass : ∀ k product, s.Catalog k = some product → product.MassG ≤ cap) :
    (∀ (fuel : Nat) (order : Order), (∀ item ∈ order.Requested, item.Quantity ≤ (fuel : Int)) →
      ∃ r, ProcessOrder cap fuel s order = some r) ∧
    (∀ (fuel : Nat) (orderID : Int) (before : List Item) (st : PackState) (item : Item)
      (product : Product),
      processItems cap fuel orderID before ⟨s, [], [], 0, []⟩ = some (st, none) →
      s.Catalog item.ProductID = some product →
      ∀ fuel2 : Nat,
        (packLoop cap orderID item.ProductID product fuel2
          (min item.Quantity (st.store.Inventory item.ProductID)) item.Quantity st).isSome = true ↔
        (max 0 (min item.Quantity (st.store.Inventory item.ProductID))).toNat ≤ fuel2) := by
  constructor
  · intro fuel order hfuel
    obtain ⟨res, hres⟩ := processItems_terminates cap fuel order.OrderID s hmass order.Requested
      ⟨s, [], [], 0, []⟩ hfuel rfl (fun _ => rfl)
    unfold ProcessOrder
    cases hreq : order.Requested with
    | nil => exact ⟨_, rfl⟩
    | cons a l =>
      rw [hreq] at hres
      simp only [hres]
      obtain ⟨st, err⟩ := res
      cases err with
      | some e => exact ⟨_, rfl⟩
      | none =>
        simp only
        cases (flushShipment cap order.OrderID st).pending with
        | nil => exact ⟨_, rfl⟩
        | cons x xs => exact ⟨_, rfl⟩
  · intro fuel orderID before st item product hbefore hc fuel2
    have hW : st.currentShipment = [] → st.currentWeight = 0 :=
      processItems_stable (stable_emptyWeight cap orderID) fuel _ _ _ hbefore (fun _ => rfl)
    exact packLoop_isSome_iff cap orderID item.ProductID product
      (hmass item.ProductID product hc) fuel2 _ _ st hW

/-- Witness of C17: in the store of the split test every catalog product
weighs at most 1800 grams, and the order for three units of product 1 returns
with fuel 3. -/
theorem ProcessOrder_terminates_within_cap_witness :
    ∃ r, ProcessOrder 1800 3 splitStore ⟨1001, [⟨1, 3⟩]⟩ = some r :=
  (ProcessOrder_terminates_within_cap 1800 splitStore (by
    intro k product h
    simp only [splitStore, InitCatalog, MemoryStore.InitCatalog, MemoryStore.AddStock,
      NewMemoryStore] at h
    split at h
    · cases h; decide
    · cases h)).1 3 ⟨1001, [⟨1, 3⟩]⟩ (by decide)

/-! ## ProcessOrder: abort at an unknown product -/

theorem processItems_append (cap : Int) (fuel : Nat) (orderID : Int) (l1 l2 : List Item)
    (st : PackState) :
    processItems cap fuel orderID (l1 ++ l2) st =
      match processItems cap fuel orderID l1 st with
      | none => none
      | some (st1, some e) => some (st1, some e)
      | some (st1, none) => processItems cap fuel orderID l2 st1 := by
  induction l1 generalizing st with
  | nil => rfl
  | cons it rest ih =>
    rw [List.cons_append, processItems_cons, processItems_cons]
    cases st.store.Catalog it.ProductID with
    | none => rfl
    | some product =>
      simp only
      cases packLoop cap orderID it.ProductID product fuel
          (min it.Quantity (st.store.Inventory it.ProductID)) it.Quantity st with
      | none => rfl
      | some res => exact ih _

/-- When the first item of an unknown product comes after the items `before`
and `ProcessOrder` returns, it returns the not-found error of that item with
the pending backlog and the catalog as they were; the store and the executed
shipments are those reached after the items `before`, so the shipment still
being accumulated is not executed. -/
theorem ProcessOrder_abort_at_unknown_product (cap : Int) (fuel : Nat) (s : MemoryStore)
    (orderID : Int) (before : List Item) (item : Item) (rest : List Item)
    (hbefore : ∀ b ∈ before, (s.Catalog b.ProductID).isSome = true)
    (hitem : s.Catalog item.ProductID = none) (r : OrderResult)
    (h : ProcessOrder cap fuel s ⟨orderID, before ++ item :: rest⟩ = some r) :
    r.err = some (.ProductNotFound item.ProductID) ∧
    r.store.PendingOrders = s.PendingOrders ∧ r.store.Catalog = s.Catalog ∧
    ∃ st, processItems cap fuel orderID before ⟨s, [], [], 0, []⟩ = some (st, none) ∧
      r.store = st.store ∧ r.shipped = st.shipped := by
  have key : ∀ res, processItems cap fuel orderID (before ++ item :: rest) ⟨s, [], [], 0, []⟩ =
      some res → res.2 = some (.ProductNotFound item.ProductID) ∧
        processItems cap fuel orderID before ⟨s, [], [], 0, []⟩ = some (res.1, none) := by
    intro res hres
    rw [processItems_append] at hres
    cases hb : processItems cap fuel orderID before ⟨s, [], [], 0, []⟩ with
    | none => simp [hb] at hres
    | some rb =>
      obtain ⟨st1, e1⟩ := rb
      have hnone : e1 = none := ((processItems_error_iff cap fuel orderID before _ _ hb).1).mpr
        hbefore
      subst hnone
      simp only [hb] at hres
      have hcat : st1.store.Catalog = s.Catalog :=
        processItems_stable (stable_Catalog cap orderID s.Catalog) fuel _ _ _ hb rfl
      rw [processItems_cons, hcat, hitem] at hres
      simp only [Option.some.injEq] at hres
      subst hres
      exact ⟨rfl, rfl⟩
  rcases ProcessOrder_cases cap fuel s _ r h with h1 | h1 | h1
  · exact absurd h1.1 (by simp)
  · obtain ⟨_, st, e, hp, hst, herr, hsh⟩ := h1
    obtain ⟨he, hb⟩ := key _ hp
    simp only at he hb
    have hpo : st.store.PendingOrders = s.PendingOrders :=
      processItems_stable (stable_PendingOrders cap orderID s.PendingOrders) fuel _ _ _ hb rfl
    have hcat : st.store.Catalog = s.Catalog :=
      processItems_stable (stable_Catalog cap orderID s.Catalog) fuel _ _ _ hb rfl
    exact ⟨by rw [herr, he], by rw [hst, hpo], by rw [hst, hcat], st, hb, hst, hsh⟩
  · obtain ⟨_, st, hp, _⟩ := h1
    obtain ⟨he, _⟩ := key _ hp
    cases he

/-- C14 (at the failing input). With a cap of 1800 grams, one unit in stock of
the 1801-gram product 1 and no product 999 in the catalog, the order for one
unit of product 1 and then one unit of product 999 does not return, whatever
the fuel: the packing loop of the first item never ends, so the unknown
product at position 1 is never reached. -/
theorem ProcessOrder_unknown_after_overweight_never_returns (fuel : Nat) :
    heavyStore.Catalog 999 = none ∧ (heavyStore.Catalog 1).isSome = true ∧
    ProcessOrder 1800 fuel heavyStore heavyThenUnknownOrder = none := by
  refine ⟨by decide, by decide, ?_⟩
  have hc : heavyStore.Catalog 1 = some ⟨1, "Heavy Item", 1801⟩ := by decide
  unfold ProcessOrder
  simp only [heavyThenUnknownOrder, processItems_cons, hc]
  rw [packLoop_overweight 1800 1002 1 ⟨1, "Heavy Item", 1801⟩ (by decide) fuel _ 1 _
    (by decide) (by decide)]

/-! ## ProcessOrder on distinct products: no flush fails -/

theorem flushFails_eq_false_iff (cap orderID : Int) (st : PackState) :
    flushFails cap orderID st = false ↔
      (st.currentShipment = [] ∨
        (ShipPackage cap st.store ⟨orderID, st.currentShipment⟩).2 = none) := by
  unfold flushFails
  cases hcur : st.currentShipment with
  | nil => simp
  | cons a l =>
    cases h : (ShipPackage cap st.store ⟨orderID, a :: l⟩).2 <;> simp

/-- A flush whose `ShipPackage` call does not fail leaves the local `pending`
as it is: units are requeued by failing flushes only. -/
theorem flushShipment_pending_of_not_fails (cap orderID : Int) (st : PackState)
    (h : flushFails cap orderID st = false) :
    (flushShipment cap orderID st).pending = st.pending := by
  rcases flushShipment_cases cap orderID st with h1 | h1 | h1
  · rw [h1.2]
  · rw [h1.2.2]
  · obtain ⟨hne, ⟨e, he⟩, _⟩ := h1
    rcases (flushFails_eq_false_iff cap orderID st).mp h with h2 | h2
    · exact absurd h2 hne
    · rw [he] at h2; cases h2

theorem PackInv.flushFails {cap : Int} {s0 : MemoryStore} {placed : Int → Int}
    {pend : List Item} {st : PackState} (orderID : Int) (h : PackInv cap s0 placed pend st) :
    flushFails cap orderID st = false := by
  rw [flushFails_eq_false_iff]
  right
  unfold ShipPackage
  show (match validateItems cap st.store st.currentShipment 0 with
    | .error e => (st.store, some e)
    | .ok _ => (deductItems st.store st.currentShipment, none)).2 = none
  rw [h.valid]

theorem PackInv.emptyWeight {cap : Int} {s0 : MemoryStore} {placed : Int → Int}
    {pend : List Item} {st : PackState} (h : PackInv cap s0 placed pend st) :
    st.currentShipment = [] → st.currentWeight = 0 := by
  intro hnil
  have hv := h.valid
  rw [hnil] at hv
  simp only [validateItems, Except.ok.injEq] at hv
  exact hv.symm

theorem packLoopFailed_done (cap orderID productID : Int) (product : Product) (fuel : Nat)
    (toShip : Int) (st : PackState) (h : ¬ toShip > 0) :
    packLoopFailed cap orderID productID product fuel toShip st = 0 := by
  unfold packLoopFailed; simp [h]

theorem packLoopFailed_succ (cap orderID productID : Int) (product : Product) (fuel : Nat)
    (toShip : Int) (st st1 : PackState) (h : toShip > 0)
    (hst1 : st1 = if st.currentWeight + product.MassG > cap then flushShipment cap orderID st
      else st) :
    packLoopFailed cap orderID productID product (fuel + 1) toShip st =
      if st1.currentWeight + product.MassG ≤ cap then
        (if st.currentWeight + product.MassG > cap ∧ flushFails cap orderID st = true then 1
          else 0) +
        packLoopFailed cap orderID productID product fuel (toShip - 1)
          { store := st1.store
            pending := st1.pending
            currentShipment := st1.currentShipment ++ [{ ProductID := productID, Quantity := 1 }]
            currentWeight := st1.currentWeight + product.MassG
            shipped := st1.shipped }
      else
        (if st.currentWeight + product.MassG > cap ∧ flushFails cap orderID st = true then 1
          else 0) +
        packLoopFailed cap orderID productID product fuel toShip st1 := by
  subst hst1
  rw [packLoopFailed]
  simp only [h, if_true]

/-- Under the invariant, with a unit mass within the cap and stock for the
units to place, no flush of the packing loop fails, whatever the fuel. -/
theorem packLoopFailed_zero (cap orderID : Int) (s0 : MemoryStore) (p : Int) (product : Product)
    (hc : s0.Catalog p = some product) (hm : product.MassG ≤ cap) (pend : List Item)
    (fuel : Nat) (toShip : Int) (placed : Int → Int) (st : PackState)
    (h : PackInv cap s0 placed pend st)
    (hroom : toShip > 0 → placed p + toShip ≤ s0.Inventory p) :
    packLoopFailed cap orderID p product fuel toShip st = 0 := by
  induction fuel generalizing toShip placed st with
  | zero => unfold packLoopFailed; split <;> rfl
  | succ n ih =>
    by_cases ht : toShip > 0
    · obtain ⟨st1, hst1⟩ : ∃ st1, st1 = if st.currentWeight + product.MassG > cap then
          flushShipment cap orderID st else st := ⟨_, rfl⟩
      rw [packLoopFailed_succ _ _ _ _ _ _ _ st1 ht hst1]
      have hnf : ¬ (st.currentWeight + product.MassG > cap ∧ flushFails cap orderID st = true) := by
        rw [h.flushFails orderID]; simp
      have h1 : PackInv cap s0 placed pend st1 ∧ st1.currentWeight + product.MassG ≤ cap := by
        rw [hst1]
        split
        · obtain ⟨a, _, c⟩ := h.flush orderID
          exact ⟨a, by rw [c]; omega⟩
        · exact ⟨h, by omega⟩
      rw [if_pos h1.2, if_neg hnf]
      have h2 := h1.1.place p product hc h1.2 (by have := hroom ht; omega)
      rw [ih (toShip - 1) _ _ h2 (fun _ => by simp only [if_true]; have := hroom ht; omega)]
    · exact packLoopFailed_done _ _ _ _ _ _ _ ht

/-- Under the invariant, with a unit mass within the cap and stock for the
units to place, the packing loop keeps the invariant when it returns. -/
theorem packLoop_keeps_inv (cap orderID : Int) (s0 : MemoryStore) (p : Int) (product : Product)
    (hc : s0.Catalog p = some product) (hm : product.MassG ≤ cap) (pend : List Item)
    (fuel : Nat) (toShip remaining : Int) (placed : Int → Int) (st : PackState)
    (r : Int × PackState)
    (h : PackInv cap s0 placed pend st)
    (hroom : toShip > 0 → placed p + toShip ≤ s0.Inventory p)
    (hloop : packLoop cap orderID p product fuel toShip remaining st = some r) :
    PackInv cap s0 (fun k => if k = p then placed p + max 0 toShip else placed k) pend r.2 := by
  rcases le_or_lt toShip 0 with ht | ht
  · rw [packLoop_done _ _ _ _ _ _ _ _ (by omega)] at hloop
    cases hloop
    exact h.congr (fun k => by rw [max_eq_left ht]; split <;> simp_all) rfl
  · have hfuel : (max 0 toShip).toNat ≤ fuel :=
      (packLoop_isSome_iff cap orderID p product hm fuel toShip remaining st h.emptyWeight).mp
        (by rw [hloop]; rfl)
    rw [max_eq_right (le_of_lt ht)] at hfuel ⊢
    have hn : ((toShip.toNat : Nat) : Int) = toShip := Int.toNat_of_nonneg (le_of_lt ht)
    obtain ⟨st2, hloop2, hinv⟩ := packLoop_places_all cap orderID s0 p product hc hm pend
      toShip.toNat fuel remaining placed st h hfuel (by rw [hn]; exact hroom ht)
    rw [hn] at hloop2 hinv
    rw [hloop] at hloop2
    cases hloop2
    exact hinv

theorem itemsQty_placedItems_of_not_mem (s : MemoryStore) (items : List Item) (k : Int)
    (h : ∀ item ∈ items, item.ProductID ≠ k) : itemsQty k (placedItems s items) = 0 := by
  induction items with
  | nil => rfl
  | cons it rest ih =>
    have h1 := h it (List.mem_cons_self _ _)
    have h2 := ih (fun item hm => h item (List.mem_cons_of_mem _ hm))
    simp only [placedItems, List.map_cons, itemsQty, h1, if_false, zero_add]
    exact h2

theorem itemsQty_placedItems_of_mem (s : MemoryStore) (items : List Item)
    (hd : (items.map Item.ProductID).Nodup) (item : Item) (hm : item ∈ items) :
    itemsQty item.ProductID (placedItems s items) =
      max 0 (min item.Quantity (s.Inventory item.ProductID)) := by
  induction items with
  | nil => simp at hm
  | cons it rest ih =>
    simp only [List.map_cons, List.nodup_cons, List.mem_map, not_exists, not_and] at hd
    simp only [List.mem_cons] at hm
    show (if it.ProductID = item.ProductID then
        max 0 (min it.Quantity (s.Inventory it.ProductID)) else 0) +
      itemsQty item.ProductID (placedItems s rest) = _
    rcases hm with hm | hm
    · subst hm
      rw [itemsQty_placedItems_of_not_mem s rest item.ProductID (fun x hx => hd.1 x hx)]
      simp
    · have hne : ¬ it.ProductID = item.ProductID := fun e => hd.1 item hm e.symm
      rw [if_neg hne, ih hd.2 hm]
      simp

/-- Under the invariant, on items whose products are pairwise distinct, all in
the catalog with unit mass within the cap, and of which nothing has been
placed yet, no flush of the loop over the items fails; and when the loop ends,
the invariant holds with max(0, min(quantity, stock)) more units placed of
each item. -/
theorem processItemsFailed_zero (cap : Int) (fuel : Nat) (orderID : Int)
    (s0 : MemoryStore) (items : List Item)
    (placed : Int → Int) (pend : List Item) (st : PackState)
    (h : PackInv cap s0 placed pend st)
    (hfresh : ∀ item ∈ items, placed item.ProductID = 0)
    (hd : (items.map Item.ProductID).Nodup)
    (hcat : ∀ item ∈ items, ∃ product, s0.Catalog item.ProductID = some product ∧
      product.MassG ≤ cap) :
    processItemsFailed cap fuel orderID items st = 0 ∧
    ∀ st2, processItems cap fuel orderID items st = some (st2, none) →
      ∃ pend2, PackInv cap s0 (fun k => placed k + itemsQty k (placedItems s0 items)) pend2
        st2 := by
  induction items generalizing placed pend st with
  | nil =>
    refine ⟨rfl, fun st2 h2 => ?_⟩
    simp only [processItems, Option.some.injEq, Prod.mk.injEq, and_true] at h2
    subst h2
    exact ⟨pend, h.congr (fun k => by simp [placedItems, itemsQty]) rfl⟩
  | cons it rest ih =>
    obtain ⟨product, hc, hm⟩ := hcat it (List.mem_cons_self _ _)
    have hp0 := hfresh it (List.mem_cons_self _ _)
    simp only [List.map_cons, List.nodup_cons, List.mem_map, not_exists, not_and] at hd
    have hcount := h.count it.ProductID
    have hsn := h.shippedNonneg it.ProductID
    have hcn := h.curNonneg it.ProductID
    have havail : st.store.Inventory it.ProductID = s0.Inventory it.ProductID := by
      have := h.stock it.ProductID
      omega
    have hle2 : min it.Quantity (st.store.Inventory it.ProductID) ≤ s0.Inventory it.ProductID := by
      rw [← havail]; exact min_le_right _ _
    have hroom : min it.Quantity (st.store.Inventory it.ProductID) > 0 →
        placed it.ProductID + min it.Quantity (st.store.Inventory it.ProductID) ≤
          s0.Inventory it.ProductID := fun _ => by omega
    have hfail := packLoopFailed_zero cap orderID s0 it.ProductID product hc hm pend fuel
      (min it.Quantity (st.store.Inventory it.ProductID)) placed st h hroom
    have hcst : st.store.Catalog it.ProductID = some product := by rw [h.catalog]; exact hc
    rw [processItems_cons, hcst]
    simp only [processItemsFailed, FindProduct, MemoryStore.GetProduct, MemoryStore.GetStock,
      hcst, hfail, zero_add]
    cases hloop : packLoop cap orderID it.ProductID product fuel
        (min it.Quantity (st.store.Inventory it.ProductID)) it.Quantity st with
    | none => exact ⟨rfl, fun st2 h2 => by cases h2⟩
    | some res =>
      obtain ⟨remaining, st1⟩ := res
      have hinv1 := packLoop_keeps_inv cap orderID s0 it.ProductID product hc hm pend fuel _ _
        placed st _ h hroom hloop
      simp only at hinv1 ⊢
      have hinv2 : ∃ pend2, PackInv cap s0
          (fun k => if k = it.ProductID then placed it.ProductID +
            max 0 (min it.Quantity (st.store.Inventory it.ProductID)) else placed k) pend2
          (if remaining > 0 then
            { st1 with pending := st1.pending ++
              [{ ProductID := it.ProductID, Quantity := remaining }] }
          else st1) := by
        split
        · exact ⟨_, { hinv1 with pending := rfl }⟩
        · exact ⟨_, hinv1⟩
      obtain ⟨pend2, hinv2⟩ := hinv2
      obtain ⟨hzero, hnext⟩ := ih _ _ _ hinv2
        (fun item hmem => by
          have hne : ¬ item.ProductID = it.ProductID := fun e => hd.1 item hmem e
          simp only [hne, if_false]
          exact hfresh item (List.mem_cons_of_mem _ hmem))
        hd.2
        (fun item hmem => hcat item (List.mem_cons_of_mem _ hmem))
      refine ⟨hzero, fun st2 h2 => ?_⟩
      obtain ⟨pend3, hinv3⟩ := hnext st2 h2
      refine ⟨pend3, hinv3.congr (fun k => ?_) rfl⟩
      show placed k + ((if it.ProductID = k then
          max 0 (min it.Quantity (s0.Inventory it.ProductID)) else 0) +
        itemsQty k (placedItems s0 rest)) = _
      rw [havail]
      by_cases hk : k = it.ProductID
      · subst hk; simp only [if_true]; omega
      · have hk2 : ¬ it.ProductID = k := fun e => hk e.symm
        simp only [hk, hk2, if_false]; omega

/-- Counterexample to C19: product 0 (700 grams) is in the catalog with two
units in stock and the cap is 1800 grams; the order names product 0 on two
lines of two units. The first flush ships two units, the final flush of the
other two fails in `ShipPackage` for lack of stock, and the two units are
requeued: they are the pending order, although every line could be placed in
full. -/
theorem ProcessOrder_repeated_product_flush_fails :
    (∀ k, 0 ≤ twoUnitStore.Inventory k) ∧
    (∀ item ∈ twiceTwoOrder.Requested, ∃ product,
      twoUnitStore.Catalog item.ProductID = some product ∧ product.MassG ≤ 1800) ∧
    ProcessOrderFailedFlushes 1800 2 twoUnitStore twiceTwoOrder = 1 ∧
    (ProcessOrder 1800 2 twoUnitStore twiceTwoOrder).map
      (fun r => (r.err, r.shipped, r.store.PendingOrders)) =
      some (none, [⟨2, [⟨0, 1⟩, ⟨0, 1⟩]⟩], [⟨2, [⟨0, 1⟩, ⟨0, 1⟩]⟩]) ∧
    expectedRemainder twoUnitStore twiceTwoOrder.Requested = [] := by
  refine ⟨?_, ?_, by decide, by decide, by decide⟩
  · intro k
    simp only [twoUnitStore, catalogStore, InitCatalog, MemoryStore.InitCatalog,
      MemoryStore.AddStock, NewMemoryStore]
    split_ifs <;> simp
  · intro item hm
    simp only [twiceTwoOrder, List.mem_cons, List.mem_singleton, List.not_mem_nil, or_false,
      or_self] at hm
    subst hm
    exact ⟨⟨0, "RBC A+ Adult", 700⟩, rfl, by decide⟩

/-- C19 (amended). For every store with non-negative stock and every order
whose items name pairwise distinct products, all in the catalog with unit mass
at most the cap, no `ShipPackage` call that `ProcessOrder` makes when flushing
fails, whatever the fuel; and when `ProcessOrder` returns, every unit that was
placed into a shipment, max(0, min(quantity, stock)) of each item, is in an
executed shipment, so none was requeued. -/
theorem ProcessOrder_no_flush_fails_on_distinct_products (cap : Int) (fuel : Nat)
    (s : MemoryStore) (order : Order) (_hs : ∀ k, 0 ≤ s.Inventory k)
    (hd : (order.Requested.map Item.ProductID).Nodup)
    (hcat : ∀ item ∈ order.Requested, ∃ product, s.Catalog item.ProductID = some product ∧
      product.MassG ≤ cap) :
    ProcessOrderFailedFlushes cap fuel s order = 0 ∧
    (∀ r, ProcessOrder cap fuel s order = some r →
      ∀ item ∈ order.Requested, shippedQty item.ProductID r.shipped =
        max 0 (min item.Quantity (s.Inventory item.ProductID))) := by
  have h0 : PackInv cap s (fun _ => 0) [] ⟨s, [], [], 0, []⟩ :=
    { catalog := rfl, pendingOrders := rfl,
      stock := fun k => by simp [shippedQty],
      count := fun k => by simp [shippedQty, itemsQty],
      bound := fun _ => Or.inl rfl,
      shippedNonneg := fun k => by simp [shippedQty],
      units := fun item hm => by simp at hm,
      valid := rfl, pending := rfl }
  obtain ⟨hzero, hnext⟩ := processItemsFailed_zero cap fuel order.OrderID s order.Requested
    (fun _ => 0) [] _ h0 (fun _ _ => rfl) hd hcat
  constructor
  · unfold ProcessOrderFailedFlushes
    cases hreq : order.Requested with
    | nil => rfl
    | cons a l =>
      rw [hreq] at hzero hnext
      simp only [hzero, zero_add]
      cases hp : processItems cap fuel order.OrderID (a :: l) ⟨s, [], [], 0, []⟩ with
      | none => rfl
      | some res =>
        obtain ⟨st, err⟩ := res
        cases err with
        | some e => rfl
        | none =>
          obtain ⟨pend2, hinv⟩ := hnext st hp
          simp only [hinv.flushFails order.OrderID]
          rfl
  · intro r hr item hm
    rcases ProcessOrder_cases cap fuel s order r hr with h1 | h1 | h1
    · rw [h1.1] at hm; simp at hm
    · obtain ⟨_, st, e, hp, _⟩ := h1
      have hall : ∀ it ∈ order.Requested, (s.Catalog it.ProductID).isSome = true := by
        intro it hit
        obtain ⟨product, hc, _⟩ := hcat it hit
        simp [hc]
      have := ((processItems_error_iff cap fuel order.OrderID _ _ _ hp).1).mpr hall
      cases this
    · obtain ⟨_, st, hp, _, hsh, _⟩ := h1
      obtain ⟨pend2, hinv⟩ := hnext st hp
      obtain ⟨hfl, hcur, _⟩ := hinv.flush order.OrderID
      have hcount := hfl.count item.ProductID
      rw [hcur] at hcount
      have hnil : itemsQty item.ProductID [] = 0 := rfl
      rw [hnil] at hcount
      simp only [zero_add, add_zero] at hcount
      rw [hsh, hcount]
      exact itemsQty_placedItems_of_mem s order.Requested hd item hm

/-- Witness of C19 (amended): order 123 names the distinct products 0 and 10 of
the stocked store; no flush fails and the two units of product 0 and the one
unit of product 10 that are placed are shipped. -/
theorem ProcessOrder_no_flush_fails_on_distinct_products_witness :
    ProcessOrderFailedFlushes 1800 3 stockedStore order123 = 0 ∧
    (∀ r, ProcessOrder 1800 3 stockedStore order123 = some r →
      ∀ item ∈ order123.Requested, shippedQty item.ProductID r.shipped =
        max 0 (min item.Quantity (stockedStore.Inventory item.ProductID))) :=
  ProcessOrder_no_flush_fails_on_distinct_products 1800 3 stockedStore order123
    (by
      intro k
      simp only [stockedStore, catalogStore, InitCatalog, MemoryStore.InitCatalog,
        MemoryStore.AddStock, NewMemoryStore]
      split_ifs <;> simp)
    (by decide)
    (by
      intro item hm
      simp only [order123, List.mem_cons, List.mem_singleton, List.not_mem_nil, or_false] at hm
      rcases hm with rfl | rfl
      · exact ⟨⟨0, "RBC A+ Adult", 700⟩, rfl, by decide⟩
      · exact ⟨⟨10, "FFP A+", 300⟩, rfl, by decide⟩)

/-! ## ProcessOrder on a single item: packing by integer division -/

theorem PackInv.flush_shipped {cap : Int} {s0 : MemoryStore} {placed : Int → Int}
    {pend : List Item} {st : PackState} (orderID : Int) (h : PackInv cap s0 placed pend st)
    (hne : st.currentShipment ≠ []) :
    (flushShipment cap orderID st).shipped = st.shipped ++ [⟨orderID, st.currentShipment⟩] := by
  rcases flushShipment_cases cap orderID st with h1 | h1 | h1
  · exact absurd h1.1 hne
  · rw [h1.2.2]
  · obtain ⟨_, ⟨e, he⟩, _⟩ := h1
    rcases (flushFails_eq_false_iff cap orderID st).mp (h.flushFails orderID) with h2 | h2
    · exact absurd h2 hne
    · rw [he] at h2; cases h2

/-- The shipments of `packByDivision` from the number `a` of full shipments and
the size `j` of the last one. -/
theorem packByDivision_eq (orderID p : Int) (k q a j : Nat) (hk : 0 < k) (hj : j ≤ k)
    (hq : a * k + j = q) :
    List.replicate a ({ OrderID := orderID, Requested := List.replicate k ⟨p, 1⟩ } : Order) ++
      (if j = 0 then []
       else [({ OrderID := orderID, Requested := List.replicate j ⟨p, 1⟩ } : Order)]) =
    packByDivision orderID p k q := by
  unfold packByDivision
  rcases Nat.lt_or_ge j k with hlt | hge
  · have hdm : q / k = a ∧ q % k = j :=
      (Nat.div_mod_unique hk).mpr ⟨by rw [← hq, Nat.mul_comm]; omega, hlt⟩
    rw [hdm.1, hdm.2]
  · have hjk : j = k := by omega
    subst hjk
    have hdm : q / j = a + 1 ∧ q % j = 0 :=
      (Nat.div_mod_unique hk).mpr ⟨by rw [← hq, Nat.mul_add, Nat.mul_comm]; omega, hk⟩
    rw [hdm.1, hdm.2]
    have hj0 : ¬ j = 0 := by omega
    simp only [hj0, if_false, if_true, List.append_nil]
    exact (List.replicate_succ' a _).symm

theorem packByDivision_length (orderID p : Int) (k q : Nat) (hk : 0 < k) :
    (packByDivision orderID p k q).length = (q + k - 1) / k := by
  unfold packByDivision
  have hdiv := Nat.div_add_mod q k
  by_cases h0 : q % k = 0
  · simp only [h0, if_true, List.append_nil, List.length_replicate]
    symm
    apply Nat.div_eq_of_lt_le
    · rw [h0] at hdiv
      rw [Nat.mul_comm] at hdiv
      omega
    · rw [h0] at hdiv
      rw [Nat.add_mul, Nat.mul_comm (q / k) k]
      omega
  · simp only [h0, if_false, List.length_append, List.length_replicate, List.length_singleton]
    symm
    have hlt := Nat.mod_lt q hk
    apply Nat.div_eq_of_lt_le
    · rw [Nat.add_mul, Nat.mul_comm (q / k) k]
      omega
    · rw [Nat.add_mul, Nat.add_mul, Nat.mul_comm (q / k) k]
      omega

/-- The packing loop on one product with `k = cap / mass` units per shipment:
from `a` full shipments executed and `j` units in the shipment being
accumulated, placing `n` more units leads to `a2` full shipments and `j2`
units with `a2 * k + j2 = a * k + j + n`. -/
theorem packLoop_by_division (cap orderID : Int) (s0 : MemoryStore) (p : Int) (product : Product)
    (hc : s0.Catalog p = some product) (hm0 : 0 < product.MassG) (hm : product.MassG ≤ cap)
    (pend : List Item) (n : Nat) (fuel : Nat) (remaining : Int) (placed : Int → Int)
    (st : PackState) (a j : Nat)
    (h : PackInv cap s0 placed pend st) (hfuel : n ≤ fuel)
    (hroom : placed p + n ≤ s0.Inventory p)
    (hshipped : st.shipped = List.replicate a
      ⟨orderID, List.replicate (cap / product.MassG).toNat ⟨p, 1⟩⟩)
    (hcur : st.currentShipment = List.replicate j ⟨p, 1⟩)
    (hweight : st.currentWeight = j * product.MassG)
    (hj : j ≤ (cap / product.MassG).toNat) :
    ∃ st2 a2 j2, packLoop cap orderID p product fuel n remaining st = some (remaining - n, st2) ∧
      PackInv cap s0 (fun x => if x = p then placed p + n else placed x) pend st2 ∧
      st2.shipped = List.replicate a2
        ⟨orderID, List.replicate (cap / product.MassG).toNat ⟨p, 1⟩⟩ ∧
      st2.currentShipment = List.replicate j2 ⟨p, 1⟩ ∧
      j2 ≤ (cap / product.MassG).toNat ∧
      a2 * (cap / product.MassG).toNat + j2 = a * (cap / product.MassG).toNat + j + n := by
  have hk1 : (1 : Int) ≤ cap / product.MassG :=
    (Int.le_ediv_iff_mul_le hm0).mpr (by omega)
  have hkcast : (((cap / product.MassG).toNat : Nat) : Int) = cap / product.MassG :=
    Int.toNat_of_nonneg (by omega)
  have hfits : ∀ i : Nat, (i : Int) * product.MassG + product.MassG ≤ cap ↔
      i + 1 ≤ (cap / product.MassG).toNat := by
    intro i
    have h1 : ((i : Int) + 1) ≤ cap / product.MassG ↔ ((i : Int) + 1) * product.MassG ≤ cap :=
      Int.le_ediv_iff_mul_le hm0
    have h2 : ((i : Int) + 1) * product.MassG = (i : Int) * product.MassG + product.MassG := by
      rw [Int.add_mul, Int.one_mul]
    rw [h2] at h1
    rw [← h1]
    omega
  induction n generalizing fuel remaining placed st a j with
  | zero =>
    refine ⟨st, a, j, ?_, h.congr (fun x => by split <;> simp_all) rfl, hshipped, hcur, hj,
      by omega⟩
    rw [packLoop_done _ _ _ _ _ _ _ _ (by simp)]
    simp
  | succ n ih =>
    obtain ⟨f, rfl⟩ : ∃ f, fuel = f + 1 := ⟨fuel - 1, by omega⟩
    obtain ⟨st1, hst1⟩ : ∃ st1, st1 = if st.currentWeight + product.MassG > cap then
        flushShipment cap orderID st else st := ⟨_, rfl⟩
    have hpos : ((n + 1 : Nat) : Int) > 0 := by omega
    rw [packLoop_succ _ _ _ _ _ _ _ _ st1 hpos hst1]
    have e1 : ((n + 1 : Nat) : Int) - 1 = (n : Int) := by push_cast; omega
    have e2 : remaining - ((n + 1 : Nat) : Int) = remaining - 1 - (n : Int) := by
      push_cast; omega
    have hroom1 : placed p + 1 ≤ s0.Inventory p := by push_cast at hroom; omega
    -- the state after the flush test: `a1` full shipments, `j1 < k` units accumulated
    have hst1props : ∃ a1 j1, PackInv cap s0 placed pend st1 ∧
        st1.shipped = List.replicate a1
          ⟨orderID, List.replicate (cap / product.MassG).toNat ⟨p, 1⟩⟩ ∧
        st1.currentShipment = List.replicate j1 ⟨p, 1⟩ ∧
        st1.currentWeight = j1 * product.MassG ∧
        j1 + 1 ≤ (cap / product.MassG).toNat ∧
        a1 * (cap / product.MassG).toNat + j1 = a * (cap / product.MassG).toNat + j := by
      by_cases hflush : st.currentWeight + product.MassG > cap
      · rw [hst1, if_pos hflush]
        have hjk : j = (cap / product.MassG).toNat := by
          have := (hfits j).not.mp (by rw [← hweight]; omega)
          omega
        have hne : st.currentShipment ≠ [] := by
          rw [hcur, hjk]
          intro hnil
          have := congrArg List.length hnil
          simp only [List.length_replicate, List.length_nil] at this
          omega
        obtain ⟨hinv, hcur2, hw2⟩ := h.flush orderID
        refine ⟨a + 1, 0, hinv, ?_, by rw [hcur2]; rfl, by rw [hw2]; simp, by omega,
          by rw [Nat.add_mul]; omega⟩
        rw [h.flush_shipped orderID hne, hshipped, hcur, hjk]
        exact (List.replicate_succ' a _).symm
      · rw [hst1, if_neg hflush]
        refine ⟨a, j, h, hshipped, hcur, hweight, ?_, rfl⟩
        exact (hfits j).mp (by rw [← hweight]; omega)
    obtain ⟨a1, j1, hinv1, hsh1, hcur1, hw1, hj1, hsum1⟩ := hst1props
    have hfit : st1.currentWeight + product.MassG ≤ cap := by
      rw [hw1]; exact (hfits j1).mpr hj1
    rw [if_pos hfit]
    have hinv2 := hinv1.place p product hc hfit hroom1
    obtain ⟨st2, a2, j2, hloop, hinvF, hshF, hcurF, hjF, hsumF⟩ :=
      ih f (remaining - 1) _ _ a1 (j1 + 1) hinv2 (by omega)
        (by simp only [if_true]; push_cast at hroom; omega)
        hsh1
        (by
          show st1.currentShipment ++ [⟨p, 1⟩] = List.replicate (j1 + 1) ⟨p, 1⟩
          rw [hcur1]; exact (List.replicate_succ' j1 _).symm)
        (by
          show st1.currentWeight + product.MassG = ((j1 + 1 : Nat) : Int) * product.MassG
          rw [hw1]; push_cast; rw [Int.add_mul, Int.one_mul])
        hj1
    refine ⟨st2, a2, j2, ?_, hinvF.congr (fun x => ?_) rfl, hshF, hcurF, hjF, by omega⟩
    · rw [e1, e2]; exact hloop
    · by_cases hx : x = p
      · simp only [hx, if_true]; push_cast; omega
      · simp only [hx, if_false]

/-- C20. For the single-item order of `q` units of a catalog product of unit
mass `m` with 0 < m <= cap and stock at least `q`, `ProcessOrder` returns
success (given fuel `q`) and the shipments it executes are those of packing by
integer division with `k = cap / m` units per shipment: `q / k` shipments of
`k` single-unit items and a last one of `q % k` items when `k` does not divide
`q`, which makes ceil(q / k) shipments; the stock of the product ends at
stock - q, no other stock entry changes and nothing is left pending. -/
theorem ProcessOrder_packs_by_integer_division (cap : Int) (fuel : Nat) (s : MemoryStore)
    (orderID p : Int) (product : Product) (q : Nat)
    (hc : s.Catalog p = some product) (hm0 : 0 < product.MassG) (hm : product.MassG ≤ cap)
    (hstock : (q : Int) ≤ s.Inventory p) (hfuel : q ≤ fuel) :
    ∃ r, ProcessOrder cap fuel s ⟨orderID, [⟨p, q⟩]⟩ = some r ∧ r.err = none ∧
      r.shipped = packByDivision orderID p (cap / product.MassG).toNat q ∧
      r.shipped.length =
        (q + (cap / product.MassG).toNat - 1) / (cap / product.MassG).toNat ∧
      r.store.Inventory p = s.Inventory p - q ∧
      (∀ x, x ≠ p → r.store.Inventory x = s.Inventory x) ∧
      r.store.PendingOrders = [] := by
  have hk1 : (1 : Int) ≤ cap / product.MassG :=
    (Int.le_ediv_iff_mul_le hm0).mpr (by omega)
  have hkpos : 0 < (cap / product.MassG).toNat := by omega
  have h0 : PackInv cap s (fun _ => 0) [] ⟨s, [], [], 0, []⟩ :=
    { catalog := rfl, pendingOrders := rfl,
      stock := fun k => by simp [shippedQty],
      count := fun k => by simp [shippedQty, itemsQty],
      bound := fun _ => Or.inl rfl,
      shippedNonneg := fun k => by simp [shippedQty],
      units := fun item hm => by simp at hm,
      valid := rfl, pending := rfl }
  obtain ⟨st2, a2, j2, hloop, hinv, hsh, hcur, hj, hsum⟩ :=
    packLoop_by_division cap orderID s p product hc hm0 hm [] q fuel q (fun _ => 0)
      ⟨s, [], [], 0, []⟩ 0 0 h0 hfuel (by simpa using hstock) rfl rfl (by simp) (by omega)
  have hmin : min (q : Int) (s.Inventory p) = q := min_eq_left hstock
  have hp : processItems cap fuel orderID [⟨p, q⟩] ⟨s, [], [], 0, []⟩ = some (st2, none) := by
    rw [processItems_cons]
    simp only [hc, hmin, hloop, sub_self, gt_iff_lt, lt_self_iff_false, if_false]
    rfl
  obtain ⟨hfl, hcurF, _⟩ := hinv.flush orderID
  -- the shipments after the final flush
  have hshF : (flushShipment cap orderID st2).shipped =
      packByDivision orderID p (cap / product.MassG).toNat q := by
    rw [← packByDivision_eq orderID p _ q a2 j2 hkpos hj (by omega)]
    by_cases hj0 : j2 = 0
    · have hnil : st2.currentShipment = [] := by rw [hcur, hj0]; rfl
      rcases flushShipment_cases cap orderID st2 with h1 | h1 | h1
      · rw [h1.2, hsh]; simp [hj0]
      · exact absurd hnil h1.1
      · exact absurd hnil h1.1
    · have hne : st2.currentShipment ≠ [] := by
        rw [hcur]
        intro hnil
        have := congrArg List.length hnil
        simp only [List.length_replicate, List.length_nil] at this
        exact hj0 this
      rw [hinv.flush_shipped orderID hne, hsh, hcur]
      simp [hj0]
  have hpendF : (flushShipment cap orderID st2).pending = [] := hfl.pending
  have hres : ∃ r, ProcessOrder cap fuel s ⟨orderID, [⟨p, q⟩]⟩ = some r ∧ r.err = none ∧
      r.shipped = (flushShipment cap orderID st2).shipped ∧
      r.store.Inventory = (flushShipment cap orderID st2).store.Inventory ∧
      r.store.PendingOrders = [] := by
    unfold ProcessOrder
    simp only [hp, hpendF]
    exact ⟨_, rfl, rfl, rfl, rfl, rfl⟩
  obtain ⟨r, hr, herr, hrsh, hrinv, hrpo⟩ := hres
  have hcount : ∀ x, shippedQty x (flushShipment cap orderID st2).shipped =
      if x = p then (q : Int) else 0 := by
    intro x
    have := hfl.count x
    rw [hcurF] at this
    have hnil : itemsQty x [] = 0 := rfl
    rw [hnil] at this
    simp only [zero_add, add_zero] at this
    exact this
  refine ⟨r, hr, herr, by rw [hrsh, hshF], ?_, ?_, ?_, hrpo⟩
  · rw [hrsh, hshF]; exact packByDivision_length orderID p _ q hkpos
  · rw [hrinv, hfl.stock p, hcount p]; simp
  · intro x hx
    rw [hrinv, hfl.stock x, hcount x]; simp [hx]

/-- Witness of C20: Scenario C with a cap of 2000 grams. Product 1 weighs 1000
grams and three units are in stock; the order for three units is shipped as a
shipment of two units and a shipment of one unit. -/
theorem ProcessOrder_packs_by_integer_division_witness :
    packByDivision 1001 1 (2000 / 1000 : Int).toNat 3 =
      [⟨1001, [⟨1, 1⟩, ⟨1, 1⟩]⟩, ⟨1001, [⟨1, 1⟩]⟩] ∧
    ∃ r, ProcessOrder 2000 3 splitStore ⟨1001, [⟨1, ((3 : Nat) : Int)⟩]⟩ = some r ∧
      r.err = none ∧
      r.shipped = packByDivision 1001 1 (2000 / 1000 : Int).toNat 3 ∧
      r.shipped.length = (3 + (2000 / 1000 : Int).toNat - 1) / (2000 / 1000 : Int).toNat ∧
      r.store.Inventory 1 = splitStore.Inventory 1 - ((3 : Nat) : Int) ∧
      (∀ x, x ≠ 1 → r.store.Inventory x = splitStore.Inventory x) ∧
      r.store.PendingOrders = [] :=
  ⟨by decide,
    ProcessOrder_packs_by_integer_division 2000 3 splitStore 1001 1 ⟨1, "Heavy Item", 1000⟩ 3
      rfl (by decide) (by decide) (by decide) (by decide)⟩

/-! ## The stock ledger stays non-negative -/

theorem wrapInt_of_in_range (x : Int) (hlo : minInt ≤ x) (hhi : x ≤ maxInt) : wrapInt x = x := by
  unfold wrapInt
  unfold minInt at hlo ⊢
  unfold maxInt at hhi
  omega

/-- Counterexample to C10: in `fullStore` every stock entry is non-negative and
product 0 holds the largest `int`. `AddStock 0 1`, of the non-negative
quantity 1, forms the sum 9223372036854775808, which is above the largest
`int`; the 64-bit addition `s.Inventory[productID] += quantity` of the code
yields -9223372036854775808 there, a negative stock entry. -/
theorem AddStock_overflow_goes_negative :
    (∀ k, 0 ≤ fullStore.Inventory k) ∧ fullStore.Inventory 0 = maxInt ∧
    (fullStore.AddStock 0 1).Inventory 0 = 9223372036854775808 ∧
    maxInt < (fullStore.AddStock 0 1).Inventory 0 ∧
    addInt (fullStore.Inventory 0) 1 = -9223372036854775808 ∧
    addInt (fullStore.Inventory 0) 1 < 0 := by
  refine ⟨?_, by decide, by decide, by decide, by decide, by decide⟩
  intro k
  simp only [fullStore, MemoryStore.AddStock, NewMemoryStore, maxInt]
  split_ifs <;> simp

theorem restockItems_le_maxInt (restock : List Item) (s : MemoryStore)
    (hr : ∀ k, s.Inventory k ≤ maxInt)
    (hsum : ∀ k, (s.Catalog k).isSome = true → s.Inventory k + itemsQty k restock ≤ maxInt) :
    ∀ k, (restockItems s restock).Inventory k ≤ maxInt := by
  intro k
  rw [restockItems_Inventory]
  split
  · rename_i hk; exact hsum k hk
  · exact hr k

/-- C10 (amended). From a ledger whose entries are all non-negative values of
`int`: `AddStock` of a non-negative quantity whose sum with the stock is at
most the largest `int` leaves every entry non-negative, and the new entry is
what the 64-bit addition of the code yields; `DeductStock`, `ShipPackage` and
`ProcessOrder` (when it returns) with non-negative quantities leave every
entry non-negative; `ProcessRestock` (when it returns) of non-negative
quantities whose totals per catalog product, added to the stock, are at most
the largest `int` leaves every entry non-negative, the ledger after its
restock loop staying within the range of `int`; `DeductStock` with a quantity
above the current stock returns the store as it was, and otherwise lowers the
entry of that product by exactly the quantity and changes no other entry. -/
theorem stock_stays_nonnegative_within_int_range (cap : Int) (s : MemoryStore)
    (hs : ∀ k, 0 ≤ s.Inventory k) (hr : ∀ k, s.Inventory k ≤ maxInt) :
    (∀ p q, 0 ≤ q → s.Inventory p + q ≤ maxInt →
      (∀ k, 0 ≤ (s.AddStock p q).Inventory k) ∧
      (s.AddStock p q).Inventory p = addInt (s.Inventory p) q) ∧
    (∀ p q, 0 ≤ q → ∀ k, 0 ≤ (s.DeductStock p q).Inventory k) ∧
    (∀ order : Order, (∀ item ∈ order.Requested, 0 ≤ item.Quantity) →
      ∀ k, 0 ≤ (ShipPackage cap s order).1.Inventory k) ∧
    (∀ (fuel : Nat) (order : Order) (r : OrderResult),
      (∀ item ∈ order.Requested, 0 ≤ item.Quantity) →
      ProcessOrder cap fuel s order = some r → ∀ k, 0 ≤ r.store.Inventory k) ∧
    (∀ (fuel : Nat) (restock : List Item) (r : OrderResult),
      (∀ item ∈ restock, 0 ≤ item.Quantity) →
      (∀ k, (s.Catalog k).isSome = true → s.Inventory k + itemsQty k restock ≤ maxInt) →
      ProcessRestock cap fuel s restock = some r →
      (∀ k, 0 ≤ r.store.Inventory k) ∧
      (∀ k, (restockItems s restock).Inventory k ≤ maxInt)) ∧
    (∀ p q, s.Inventory p < q → s.DeductStock p q = s) ∧
    (∀ p q, 0 ≤ q → ¬ s.Inventory p < q →
      (s.DeductStock p q).Inventory p = s.Inventory p - q ∧
      (∀ k, k ≠ p → (s.DeductStock p q).Inventory k = s.Inventory k) ∧
      (s.DeductStock p q).Catalog = s.Catalog ∧
      (s.DeductStock p q).PendingOrders = s.PendingOrders) := by
  refine ⟨?_, fun p q _ => DeductStock_nonneg s p q hs,
    fun order _ => ShipPackage_nonneg cap s order hs,
    fun fuel order r _ h => ProcessOrder_nonneg cap fuel s order r h hs,
    fun fuel restock r hq hsum h =>
      ⟨ProcessRestock_nonneg cap fuel s restock r h hq hs,
        restockItems_le_maxInt restock s hr hsum⟩, ?_, ?_⟩
  · intro p q hq hsum
    refine ⟨AddStock_nonneg s p q hq hs, ?_⟩
    have hp := hs p
    rw [addInt, wrapInt_of_in_range _ (by unfold minInt; omega) hsum]
    simp [MemoryStore.AddStock]
  · intro p q h
    simp [MemoryStore.DeductStock, h]
  · intro p q _ h
    refine ⟨?_, ?_, by simp, by simp⟩
    · simp [MemoryStore.DeductStock, h]
    · intro k hk
      simp [MemoryStore.DeductStock, h, hk]

/-- Witness of C10 (amended): the store with one unit of product 3 has a
non-negative ledger of `int` values; adding two units gives 3, as the 64-bit
addition does, and deducting two units of product 3 returns it unchanged. -/
theorem stock_stays_nonnegative_within_int_range_witness :
    (∀ k, 0 ≤ cryoStore.Inventory k) ∧ (∀ k, cryoStore.Inventory k ≤ maxInt) ∧
    cryoStore.Inventory 3 + 2 ≤ maxInt ∧
    ((∀ k, 0 ≤ (cryoStore.AddStock 3 2).Inventory k) ∧
      (cryoStore.AddStock 3 2).Inventory 3 = addInt (cryoStore.Inventory 3) 2) ∧
    cryoStore.DeductStock 3 2 = cryoStore := by
  have hs : ∀ k, 0 ≤ cryoStore.Inventory k := by
    intro k
    simp only [cryoStore, InitCatalog, MemoryStore.InitCatalog, MemoryStore.AddStock,
      NewMemoryStore]
    split_ifs <;> simp
  have hr : ∀ k, cryoStore.Inventory k ≤ maxInt := by
    intro k
    simp only [cryoStore, InitCatalog, MemoryStore.InitCatalog, MemoryStore.AddStock,
      NewMemoryStore, maxInt]
    split_ifs <;> simp
  exact ⟨hs, hr, by decide,
    (stock_stays_nonnegative_within_int_range 1800 cryoStore hs hr).1 3 2 (by decide) (by decide),
    (stock_stays_nonnegative_within_int_range 1800 cryoStore hs hr).2.2.2.2.2.1 3 2 (by decide)⟩

end Zipline
